import Mathlib

/-! Verification of the `Modular` residue type (`src/modular.cpp`).

The class template `Modular<Constants>` is embedded as follows.

* The policy `Constants` (`MOD`, `NEED_PRECALC`, `PRECALC_MAX`) is a structure; the
  static member `mod` is the natural number `C.MOD`, valid when `1 < mod ≤ INT_MAX`
  (the `static_assert` of `initialize`).
* A residue is its field `value`, a `uint32_t`, embedded as a `Nat`.
* A fixed-width integer type is an `IntTy` (signedness, bit width); conversion to it is
  `IntTy.wrap` (two's complement).  Every arithmetic step of the source that can leave
  its type is written with an explicit wrap.
* Loops are driven by a fuel argument; running out of fuel is the outcome `timeout`.
  A `throw` of the source is the outcome `throw`, and a read outside a table is the
  outcome `undefined`.  Signed overflow is followed with two's complement wrapping.
-/

namespace Modular

/-! ## Integer types -/

/-- A fixed-width integer type of the source: signedness and bit width. -/
structure IntTy where
  signed : Bool
  bits : Nat
deriving DecidableEq, Repr

/-- The type `int8_t`. -/
def i8 : IntTy := ⟨true, 8⟩
/-- The type `int16_t`. -/
def i16 : IntTy := ⟨true, 16⟩
/-- The type `int32_t` (also `int`). -/
def i32 : IntTy := ⟨true, 32⟩
/-- The type `int64_t`. -/
def i64 : IntTy := ⟨true, 64⟩
/-- The type `uint8_t`. -/
def u8 : IntTy := ⟨false, 8⟩
/-- The type `uint16_t`. -/
def u16 : IntTy := ⟨false, 16⟩
/-- The type `uint32_t`. -/
def u32 : IntTy := ⟨false, 32⟩
/-- The type `uint64_t`. -/
def u64 : IntTy := ⟨false, 64⟩

/-- Conversion of an integer to the type `T`: the value modulo `2 ^ bits`, taken in
`[-2 ^ (bits - 1), 2 ^ (bits - 1))` for a signed type and in `[0, 2 ^ bits)` otherwise. -/
def IntTy.wrap (T : IntTy) (x : Int) : Int :=
  if T.signed then (x + 2 ^ (T.bits - 1)) % 2 ^ T.bits - 2 ^ (T.bits - 1)
  else x % 2 ^ T.bits

/-- The values of the type `T`. -/
def IntTy.inRange (T : IntTy) (x : Int) : Prop :=
  if T.signed then -(2 ^ (T.bits - 1)) ≤ x ∧ x < 2 ^ (T.bits - 1)
  else 0 ≤ x ∧ x < 2 ^ T.bits

instance (T : IntTy) (x : Int) : Decidable (T.inRange x) := by
  unfold IntTy.inRange; exact inferInstance

/-- Conversion to `uint32_t`. -/
def toU32 (x : Int) : Nat := (x % 2 ^ 32).toNat

/-! ## The policy -/

/-- The policy parameter of the class template: `Constants::MOD`,
`Constants::NEED_PRECALC` and `Constants::PRECALC_MAX`. -/
structure Constants where
  MOD : Nat
  NEED_PRECALC : Bool
  PRECALC_MAX : Nat
deriving DecidableEq, Repr

/-- The policy shipped in the source (`struct Constants`, of which `Mint` is the
instantiation). -/
def Mint : Constants := ⟨1000000007, true, 200000⟩

/-- The range check of `initialize`: `static_assert(1 < mod && mod <= INT_MAX)`. -/
def validMod (mod : Nat) : Prop := 1 < mod ∧ mod ≤ 2 ^ 31 - 1

instance (mod : Nat) : Decidable (validMod mod) := by
  unfold validMod; exact inferInstance

/-! ## Outcomes -/

/-- The `std::runtime_error`s thrown by the source, by message. -/
inductive Err where
  | impossibleToInverse
  | nGreaterThanMaximum
  | moduleIsNotPrime
  | notQuadraticResidue
deriving DecidableEq, Repr

/-- The outcome of a call: a returned value, a thrown error, undefined behaviour that
the embedding does not follow further (a read outside a table, a shift by the width of
the type or more), or exhausted fuel.  Signed overflow is not `undefined` here: it is
followed with two's complement wrapping. -/
inductive Outcome (α : Type) where
  | ok : α → Outcome α
  | throw : Err → Outcome α
  | undefined : Outcome α
  | timeout : Outcome α
deriving DecidableEq, Repr

/-! ## `normalize` -/

/-- The function `normalize<T>(number)`, lines 47-52.  The comparisons are made on the
values of `number` and of `static_cast<T>(±mod)`; `number %= mod` is the truncating
remainder converted back to `T`; `number += mod` is the sum converted back to `T`. -/
def normalize (mod : Nat) (T : IntTy) (number : Int) : Nat :=
  let number :=
    if number < T.wrap (-(mod : Int)) ∨ number ≥ T.wrap (mod : Int) then
      T.wrap (Int.tmod number mod)
    else number
  let number := if number < 0 then T.wrap (number + mod) else number
  toU32 number

/-! ## Policy validation -/

/-- The loop of `module_is_prime`, lines 14-16: `i` is a `uint32_t`, the product `i * i`
is taken modulo `2 ^ 32`, and `mod` is compared and divided as an unsigned value. -/
def module_is_prime_loop (mod : Nat) : Nat → Nat → Outcome Bool
  | 0, _ => .timeout
  | fuel + 1, i =>
    if (i * i) % 2 ^ 32 ≤ mod then
      if mod % i = 0 then .ok false
      else module_is_prime_loop mod fuel ((i + 1) % 2 ^ 32)
    else .ok true

/-- The function `module_is_prime()`, lines 13-18. -/
def module_is_prime (mod fuel : Nat) : Outcome Bool :=
  module_is_prime_loop mod fuel 2

/-! ## Compound assignment operators on residues -/

/-- The operator `+=` on residues, lines 191-195: the sum is a `uint32_t`. -/
def add_assign (mod value other : Nat) : Nat :=
  let value := (value + other) % 2 ^ 32
  if value ≥ mod then toU32 ((value : Int) - mod) else value

/-- The operator `-=` on residues, lines 202-206. -/
def sub_assign (mod value other : Nat) : Nat :=
  let value := if value < other then (value + mod) % 2 ^ 32 else value
  toU32 ((value : Int) - other)

/-- The operator `*=` on residues, lines 213-216: the product is a `uint64_t`. -/
def mul_assign (mod value other : Nat) : Nat :=
  (value * other) % 2 ^ 64 % mod

/-- The prefix operator `++`, lines 232-235. -/
def pre_increment (mod value : Nat) : Nat :=
  let value := (value + 1) % 2 ^ 32
  if value = mod then 0 else value

/-- The prefix operator `--`, lines 237-244. -/
def pre_decrement (mod value : Nat) : Nat :=
  if value = 0 then toU32 ((mod : Int) - 1) else toU32 ((value : Int) - 1)

/-- The postfix operator `++`, line 246: the returned residue; the operand is not
assigned.  Both branches of the conditional are `uint32_t`. -/
def post_increment (mod value : Nat) : Nat :=
  normalize mod u32 (if (value + 1) % 2 ^ 32 < mod then ((value + 1) % 2 ^ 32 : Nat) else 0)

/-- The postfix operator `--`, line 248: the returned residue; the operand is not
assigned. -/
def post_decrement (mod value : Nat) : Nat :=
  normalize mod u32 (if value ≠ 0 then (toU32 ((value : Int) - 1) : Int) else toU32 ((mod : Int) - 1))

/-- The unary operator `-`, line 250: `mod - value` is a `uint32_t`. -/
def neg (mod value : Nat) : Nat :=
  normalize mod u32 (if value ≠ 0 then (toU32 ((mod : Int) - value) : Int) else 0)

/-- The free operator `+` on residues, line 292. -/
def add (mod a b : Nat) : Nat := add_assign mod a b

/-- The free operator `-` on residues, line 301. -/
def sub (mod a b : Nat) : Nat := sub_assign mod a b

/-- The free operator `*` on residues, line 310. -/
def mul (mod a b : Nat) : Nat := mul_assign mod a b

/-- The free operator `*` of a residue and a plain number of type `T`, lines 313 and
219-221: the number is normalized first. -/
def mul_number (mod : Nat) (a : Nat) (T : IntTy) (number : Int) : Nat :=
  mul_assign mod a (normalize mod T number)

/-- The comparison `obj == number` of a residue with a plain number, lines 271-274. -/
def eq_number (mod : Nat) (a : Nat) (T : IntTy) (number : Int) : Bool :=
  decide (a = normalize mod T number)

/-! ## Exponentiation loop and inversion -/

/-- The loop of `power`, lines 98-104.  The test `deg & 1` reads the lowest bit, which is
`deg % 2` also for a negative `deg` in two's complement; `deg >>= 1` is the arithmetic
shift, the floor of `deg / 2`. -/
def power_loop (mod : Nat) : Nat → Nat → Nat → Int → Outcome Nat
  | 0, _, _, _ => .timeout
  | fuel + 1, res, x, deg =>
    if deg = 0 then .ok res
    else
      power_loop mod fuel (if deg % 2 = 1 then mul_assign mod res x else res)
        (mul_assign mod x x) (deg / 2)

/-- The loop of `inverse`, lines 60-66, on `int32_t` variables; it returns `(m, u)` at
exit.  After the two swaps the new `a` is the reduced `m`, the new `m` is the old `a`,
the new `u` is the old `v` and the new `v` is the reduced `u`. -/
def inverse_loop : Nat → Int → Int → Int → Int → Outcome (Int × Int)
  | 0, _, _, _, _ => .timeout
  | fuel + 1, a, m, u, v =>
    if a = 0 then .ok (m, u)
    else
      let t := i32.wrap (Int.tdiv m a)
      let m1 := i32.wrap (m - i32.wrap (t * a))
      let u1 := i32.wrap (u - i32.wrap (t * v))
      inverse_loop fuel m1 a v u1

/-- Whether some `int32_t` intermediate of the loop of `inverse` (`t * a`, `m - t * a`,
`t * v`, `u - t * v`) leaves the range of `int32_t` within the given number of
iterations.  The loop run is the one of `inverse_loop`. -/
def inverse_loop_overflows : Nat → Int → Int → Int → Int → Bool
  | 0, _, _, _, _ => false
  | fuel + 1, a, m, u, v =>
    if a = 0 then false
    else
      let t := i32.wrap (Int.tdiv m a)
      let m1 := i32.wrap (m - i32.wrap (t * a))
      let u1 := i32.wrap (u - i32.wrap (t * v))
      !(decide (i32.inRange (t * a)) && decide (i32.inRange (m - i32.wrap (t * a)))
        && decide (i32.inRange (t * v)) && decide (i32.inRange (u - i32.wrap (t * v))))
      || inverse_loop_overflows fuel m1 a v u1

/-- The extended Euclid branch of `inverse`, lines 58-68. -/
def inverse_euclid (mod fuel : Nat) (number : Nat) : Outcome Nat :=
  match inverse_loop fuel (i32.wrap number) mod 0 1 with
  | .ok (m, u) => if m ≠ 1 then .throw .impossibleToInverse else .ok (normalize mod i32 u)
  | .throw e => .throw e
  | .undefined => .undefined
  | .timeout => .timeout

/-- The Fermat branch of `inverse`, line 56: `power(number, mod - 2).value`.  The
exponent `mod - 2` is not negative, so the call is the loop of `power` started from
`res = 1` and `x = number` (see `power`). -/
def inverse_fermat (mod fuel : Nat) (number : Nat) : Outcome Nat :=
  power_loop mod fuel (normalize mod i32 1) (normalize mod u32 number) (i32.wrap ((mod : Int) - 2))

/-- The function `inverse(number)`, lines 54-69: `if constexpr (module_is_prime())`
selects the Fermat branch, otherwise the extended Euclid loop runs. -/
def inverse (mod fuel : Nat) (number : Nat) : Outcome Nat :=
  match module_is_prime mod fuel with
  | .ok true => inverse_fermat mod fuel number
  | .ok false => inverse_euclid mod fuel number
  | .throw e => .throw e
  | .undefined => .undefined
  | .timeout => .timeout

/-! ## Factorial tables -/

/-- The static arrays `fact` and `ifact`, each of `PRECALC_MAX + 1` elements. -/
structure Tables where
  fact : List Nat
  ifact : List Nat
deriving DecidableEq, Repr

/-- The first loop of `calculate_factorials`, lines 21-24, for `i = 1, ..., PRECALC_MAX`,
on the zero-initialized array. -/
def calculate_fact (C : Constants) : List Nat :=
  (List.range' 1 C.PRECALC_MAX).foldl
    (fun fact i => fact.set i ((fact.getD (i - 1) 0 * i) % 2 ^ 64 % C.MOD))
    ((List.replicate (C.PRECALC_MAX + 1) 0).set 0 1)

/-- The second loop of `calculate_factorials`, lines 26-28, for
`i = PRECALC_MAX, ..., 1`, after `ifact[PRECALC_MAX]` has been assigned `inv`. -/
def calculate_ifact (C : Constants) (inv : Nat) : List Nat :=
  (List.range' 1 C.PRECALC_MAX).reverse.foldl
    (fun ifact i => ifact.set (i - 1) ((ifact.getD i 0 * i) % 2 ^ 64 % C.MOD))
    ((List.replicate (C.PRECALC_MAX + 1) 0).set C.PRECALC_MAX inv)

/-- The function `calculate_factorials()`, lines 20-29. -/
def calculate_factorials (C : Constants) (fuel : Nat) : Outcome Tables :=
  let fact := calculate_fact C
  match inverse C.MOD fuel (fact.getD C.PRECALC_MAX 0) with
  | .ok inv => .ok ⟨fact, calculate_ifact C inv⟩
  | .throw e => .throw e
  | .undefined => .undefined
  | .timeout => .timeout

/-- The result of `initialize()`, lines 31-36: a failed `static_assert` rejects the
policy; otherwise the tables are as the function leaves them (zero-initialized when
`NEED_PRECALC` is false). -/
inductive Init where
  | rejected : Init
  | accepted : Outcome Tables → Init
deriving DecidableEq, Repr

/-- The function `initialize()`, lines 31-36.  Both `static_assert`s belong to every
instantiation: `if constexpr (!NEED_PRECALC) { return; }` discards only its own `return`,
so the primality assertion of line 34 also rejects a composite modulus of a policy
without precalculation.  At run time such a policy returns before the tables are
filled, which stay zero-initialized. -/
def initialize_policy (C : Constants) (fuel : Nat) : Init :=
  if ¬ (1 < C.MOD ∧ C.MOD ≤ 2 ^ 31 - 1) then .rejected
  else
    match module_is_prime C.MOD fuel with
    | .ok true =>
      if ¬ C.NEED_PRECALC then
        .accepted (.ok ⟨List.replicate (C.PRECALC_MAX + 1) 0,
          List.replicate (C.PRECALC_MAX + 1) 0⟩)
      else .accepted (calculate_factorials C fuel)
    | .ok false => .rejected
    | .throw e => .accepted (.throw e)
    | .undefined => .accepted .undefined
    | .timeout => .accepted .timeout

/-! ## Division and `power` -/

/-- The operator `/=` on residues, lines 223-230.  On the table path the index
`other.value - 1` is a `uint32_t`; the product of the two table entries is a
`uint64_t`, normalized by the constructor.  On the other path the result of `inverse`
is a `uint32_t`, normalized by the constructor. -/
def div_assign (C : Constants) (tb : Tables) (fuel : Nat) (value other : Nat) : Outcome Nat :=
  if C.NEED_PRECALC = true ∧ other ≤ C.PRECALC_MAX then
    match tb.ifact[other]?, tb.fact[toU32 ((other : Int) - 1)]? with
    | some i, some f =>
      .ok (mul_assign C.MOD value (normalize C.MOD u64 (((i * f) % 2 ^ 64 : Nat) : Int)))
    | _, _ => .undefined
  else
    match inverse C.MOD fuel other with
    | .ok inv => .ok (mul_assign C.MOD value (normalize C.MOD u32 inv))
    | .throw e => .throw e
    | .undefined => .undefined
    | .timeout => .timeout

/-- The free operator `/` on residues, line 319. -/
def div (C : Constants) (tb : Tables) (fuel : Nat) (a b : Nat) : Outcome Nat :=
  div_assign C tb fuel a b

/-- The function `power(number, deg)`, lines 91-106, where `x` is the residue
constructed from `number` and `U` is the type of `deg`.  For a negative `deg` the
residue `x` becomes `1 / x` and `deg` becomes `-deg`, converted to `U`. -/
def power (C : Constants) (tb : Tables) (fuel : Nat) (x : Nat) (U : IntTy) (deg : Int) :
    Outcome Nat :=
  if deg < 0 then
    match div_assign C tb fuel (normalize C.MOD i32 1) x with
    | .ok x1 => power_loop C.MOD fuel (normalize C.MOD i32 1) x1 (U.wrap (-deg))
    | .throw e => .throw e
    | .undefined => .undefined
    | .timeout => .timeout
  else power_loop C.MOD fuel (normalize C.MOD i32 1) x deg

/-- The function `power(number, deg)`, lines 91-106, for `number` of the integer type
`T`: line 93 constructs the residue `x` from `number` through `normalize<T>`. -/
def power_number (C : Constants) (tb : Tables) (fuel : Nat) (T : IntTy) (number : Int)
    (U : IntTy) (deg : Int) : Outcome Nat :=
  power C tb fuel (normalize C.MOD T number) U deg

/-! ## Square root -/

/-- The loop of lines 124-127: `while ((Q & 1) == 0) { Q >>= 1; ++S; }`. -/
def sqrt_split : Nat → Nat → Nat → Outcome (Nat × Nat)
  | 0, _, _ => .timeout
  | fuel + 1, Q, S =>
    if Q % 2 = 0 then sqrt_split fuel (Q / 2) ((S + 1) % 2 ^ 32) else .ok (Q, S)

/-- The loop of lines 130-135: the search of `z` from 2 on, returning `c = power(z, Q)`. -/
def sqrt_find (C : Constants) (tb : Tables) (fuel0 : Nat) (Q : Nat) : Nat → Nat → Outcome Nat
  | 0, _ => .timeout
  | fuel + 1, z =>
    match power C tb fuel0 (normalize C.MOD u32 z) i32 (Int.tdiv (i32.wrap ((C.MOD : Int) - 1)) 2) with
    | .ok e =>
      if e = normalize C.MOD i32 (i32.wrap ((C.MOD : Int) - 1)) then
        power C tb fuel0 (normalize C.MOD u32 z) u32 Q
      else sqrt_find C tb fuel0 Q fuel ((z + 1) % 2 ^ 32)
    | .throw e => .throw e
    | .undefined => .undefined
    | .timeout => .timeout

/-- The loop of lines 139-142: `while (tmp != 1) { tmp *= tmp; ++i; }`, returning `i`. -/
def sqrt_order (mod : Nat) : Nat → Nat → Nat → Outcome Nat
  | 0, _, _ => .timeout
  | fuel + 1, tmp, i =>
    if tmp = normalize mod i32 1 then .ok i
    else sqrt_order mod fuel (mul_assign mod tmp tmp) ((i + 1) % 2 ^ 32)

/-- The loop of lines 136-148.  The shift count `M - i - 1` is a `uint32_t`; the shift
`1 << count` is an `int`, undefined for a count of 32 or more. -/
def sqrt_loop (C : Constants) (tb : Tables) (fuel0 : Nat) :
    Nat → Nat → Nat → Nat → Nat → Outcome Nat
  | 0, _, _, _, _ => .timeout
  | fuel + 1, c, t, R, M =>
    if t = normalize C.MOD i32 1 then .ok R
    else
      match sqrt_order C.MOD fuel0 t 0 with
      | .ok i =>
        if toU32 ((M : Int) - i - 1) ≥ 32 then .undefined
        else
          match power C tb fuel0 c i32 (i32.wrap (2 ^ toU32 ((M : Int) - i - 1))) with
          | .ok b =>
            let c1 := mul C.MOD b b
            sqrt_loop C tb fuel0 fuel c1 (mul_assign C.MOD t c1) (mul_assign C.MOD R b) i
          | .throw e => .throw e
          | .undefined => .undefined
          | .timeout => .timeout
      | .throw e => .throw e
      | .undefined => .undefined
      | .timeout => .timeout

/-- The general path of `sqrt`, lines 122-149, on the residue `x` constructed from
`number`. -/
def sqrt_tonelli (C : Constants) (tb : Tables) (fuel : Nat) (x : Nat) : Outcome Nat :=
  match sqrt_split fuel (toU32 ((C.MOD : Int) - 1)) 0 with
  | .ok (Q, S) =>
    match power C tb fuel x u32 Q, power C tb fuel x u32 (((Q + 1) % 2 ^ 32 / 2 : Nat) : Int),
      sqrt_find C tb fuel Q fuel 2 with
    | .ok t, .ok R, .ok c => sqrt_loop C tb fuel fuel c t R S
    | .ok _, .ok _, .throw e => .throw e
    | .ok _, .ok _, .undefined => .undefined
    | .ok _, .ok _, .timeout => .timeout
    | .ok _, .throw e, _ => .throw e
    | .ok _, .undefined, _ => .undefined
    | .ok _, .timeout, _ => .timeout
    | .throw e, _, _ => .throw e
    | .undefined, _, _ => .undefined
    | .timeout, _, _ => .timeout
  | .throw e => .throw e
  | .undefined => .undefined
  | .timeout => .timeout

/-- The function `sqrt(number)`, lines 108-150, for `number` of the integer type `T`.
The exponents `(mod - 1) / 2` and `(mod + 1) / 4` are `int32_t` expressions. -/
def sqrt (C : Constants) (tb : Tables) (fuel : Nat) (T : IntTy) (number : Int) : Outcome Nat :=
  if number = 0 ∨ C.MOD = 2 then .ok (normalize C.MOD T number)
  else
    match module_is_prime C.MOD fuel with
    | .ok false => .throw .moduleIsNotPrime
    | .ok true =>
      match power C tb fuel (normalize C.MOD T number) i32
          (Int.tdiv (i32.wrap ((C.MOD : Int) - 1)) 2) with
      | .ok e =>
        if e ≠ normalize C.MOD i32 1 then .throw .notQuadraticResidue
        else if C.MOD % 4 = 3 then
          power C tb fuel (normalize C.MOD T number) i32 (Int.tdiv (i32.wrap ((C.MOD : Int) + 1)) 4)
        else sqrt_tonelli C tb fuel (normalize C.MOD T number)
      | .throw e => .throw e
      | .undefined => .undefined
      | .timeout => .timeout
    | .throw e => .throw e
    | .undefined => .undefined
    | .timeout => .timeout

/-! ## Primitive root -/

/-- The loop of lines 161-163: `while (number % i == 0) { number /= i; }`. -/
def primitive_root_strip : Nat → Int → Int → Outcome Int
  | 0, _, _ => .timeout
  | fuel + 1, number, i =>
    if Int.tmod number i = 0 then primitive_root_strip fuel (Int.tdiv number i) i
    else .ok number

/-- The loop of lines 158-164 on `int32_t` variables, returning the remaining `number`
and the vector `primes`. -/
def primitive_root_factor (fuel0 : Nat) : Nat → Int → Int → List Int → Outcome (Int × List Int)
  | 0, _, _, _ => .timeout
  | fuel + 1, i, number, primes =>
    if i32.wrap (i * i) ≤ number then
      if Int.tmod number i ≠ 0 then
        primitive_root_factor fuel0 fuel (i32.wrap (i + 1)) number primes
      else
        match primitive_root_strip fuel0 number i with
        | .ok number1 =>
          primitive_root_factor fuel0 fuel (i32.wrap (i + 1)) number1 (primes ++ [i])
        | .throw e => .throw e
        | .undefined => .undefined
        | .timeout => .timeout
    else .ok (number, primes)

/-- The loop of lines 170-175 for one candidate `r`: whether `ok` is still true after
the primes have been tried in order. -/
def primitive_root_check (C : Constants) (tb : Tables) (fuel : Nat) (r : Int) :
    List Int → Outcome Bool
  | [] => .ok true
  | p :: primes =>
    match power C tb fuel (normalize C.MOD i32 r) i32 (Int.tdiv (i32.wrap ((C.MOD : Int) - 1)) p) with
    | .ok e =>
      if e = normalize C.MOD i32 1 then .ok false
      else primitive_root_check C tb fuel r primes
    | .throw e => .throw e
    | .undefined => .undefined
    | .timeout => .timeout

/-- The loop of lines 168-179: the search of `r` from 2 on. -/
def primitive_root_search (C : Constants) (tb : Tables) (fuel0 : Nat) (primes : List Int) :
    Nat → Int → Outcome Int
  | 0, _ => .timeout
  | fuel + 1, r =>
    match primitive_root_check C tb fuel0 r primes with
    | .ok true => .ok r
    | .ok false => primitive_root_search C tb fuel0 primes fuel (i32.wrap (r + 1))
    | .throw e => .throw e
    | .undefined => .undefined
    | .timeout => .timeout

/-- The function `primitive_root()`, lines 152-180. -/
def primitive_root (C : Constants) (tb : Tables) (fuel : Nat) : Outcome Int :=
  match module_is_prime C.MOD fuel with
  | .ok false => .throw .moduleIsNotPrime
  | .ok true =>
    match primitive_root_factor fuel fuel 2 (i32.wrap ((C.MOD : Int) - 1)) [] with
    | .ok (number, primes) =>
      primitive_root_search C tb fuel (if number ≠ -1 then primes ++ [number] else primes) fuel 2
    | .throw e => .throw e
    | .undefined => .undefined
    | .timeout => .timeout
  | .throw e => .throw e
  | .undefined => .undefined
  | .timeout => .timeout

/-! ## Binomial coefficient -/

/-- Integer promotion: a type narrower than `int` is promoted to `int`. -/
def IntTy.promote (T : IntTy) : IntTy := if T.bits < 32 then i32 else T

/-- The common type of the usual arithmetic conversions on operands of types `T` and
`U`: after promotion, the wider type for equal signedness; otherwise the unsigned type
when it is at least as wide as the signed one, and the signed type when it is wider. -/
def IntTy.common (T U : IntTy) : IntTy :=
  if T.promote.signed = U.promote.signed then
    if T.promote.bits ≥ U.promote.bits then T.promote else U.promote
  else if T.promote.signed = true then
    if U.promote.bits ≥ T.promote.bits then U.promote else T.promote
  else
    if T.promote.bits ≥ U.promote.bits then T.promote else U.promote

/-- A read `table[index]` of a static array: no value outside the array. -/
def table_read (table : List Nat) (index : Int) : Option Nat :=
  if index < 0 then none else table[index.toNat]?

/-- The function `binomial(n, k)`, lines 81-89 (available under `NEED_PRECALC`), for `n`
of type `T` and `k` of type `U`.  The comparison `n < k` and the difference `n - k` are
made in the common type of `T` and `U`; `PRECALC_MAX` is converted to `T`; the table
entries are `uint32_t`, normalized by the constructor. -/
def binomial (C : Constants) (tb : Tables) (T U : IntTy) (n k : Int) : Outcome Nat :=
  if (T.common U).wrap n < (T.common U).wrap k then .ok (normalize C.MOD i32 0)
  else if n > T.wrap (C.PRECALC_MAX : Int) then .throw .nGreaterThanMaximum
  else
    match table_read tb.fact n, table_read tb.ifact k,
      table_read tb.ifact ((T.common U).wrap ((T.common U).wrap n - (T.common U).wrap k)) with
    | some f, some i1, some i2 =>
      .ok (mul_assign C.MOD (mul_assign C.MOD (normalize C.MOD u32 f) (normalize C.MOD u32 i1))
        (normalize C.MOD u32 i2))
    | _, _, _ => .undefined

/-! ## Further embeddings used by the statements -/

/-- Whether the `uint32_t` product `i * i` or the increment `++i` of the loop of
`module_is_prime` wraps within the given number of iterations.  The loop run is the one
of `module_is_prime_loop`. -/
def module_is_prime_loop_wraps (mod : Nat) : Nat → Nat → Bool
  | 0, _ => false
  | fuel + 1, i =>
    decide (2 ^ 32 ≤ i * i) ||
      (if (i * i) % 2 ^ 32 ≤ mod then
        if mod % i = 0 then false
        else
          decide (2 ^ 32 ≤ i + 1) || module_is_prime_loop_wraps mod fuel ((i + 1) % 2 ^ 32)
      else false)

/-- Division as the spec allows it without the table path, "always call inverse
directly": line 229 alone, `*this *= inverse(other.value)`. -/
def div_assign_inverse (mod fuel value other : Nat) : Outcome Nat :=
  match inverse mod fuel other with
  | .ok inv => .ok (mul_assign mod value (normalize mod u32 inv))
  | .throw e => .throw e
  | .undefined => .undefined
  | .timeout => .timeout

/-- A call of the postfix operator `++`, line 246: the returned residue and the value of
the operand after the call.  The body constructs the result and assigns nothing. -/
def post_increment_call (mod value : Nat) : Nat × Nat :=
  (post_increment mod value, value)

/-- A call of the postfix operator `--`, line 248: the returned residue and the value of
the operand after the call.  The body constructs the result and assigns nothing. -/
def post_decrement_call (mod value : Nat) : Nat × Nat :=
  (post_decrement mod value, value)

theorem i32_wrap_eq {x : Int} (h1 : -2147483648 ≤ x) (h2 : x < 2147483648) : i32.wrap x = x := by
  simp only [IntTy.wrap, i32]
  norm_num
  omega

theorem toU32_eq {x : Int} (h1 : 0 ≤ x) (h2 : x < 4294967296) : (toU32 x : Int) = x := by
  unfold toU32
  norm_num
  omega

theorem toU32_natCast {x : Nat} (h2 : x < 4294967296) : toU32 (x : Int) = x := by
  unfold toU32
  norm_num
  omega

theorem wrap_eq_of_inRange (T : IntTy) (h0 : 0 < T.bits) {x : Int} (h : T.inRange x) :
    T.wrap x = x := by
  unfold IntTy.inRange at h
  unfold IntTy.wrap
  split
  · rename_i hs
    rw [if_pos hs] at h
    · have hp : (2 : Int) ^ T.bits = 2 * 2 ^ (T.bits - 1) := by
        rw [← pow_succ']; congr 1; omega
      rw [hp]
      generalize (2 : Int) ^ (T.bits - 1) = p at *
      rw [Int.emod_eq_of_lt] <;> omega
  · rename_i hs
    rw [if_neg hs] at h
    exact Int.emod_eq_of_lt h.1 h.2

theorem tmod_eq_emod_of_nonneg {a : Int} (b : Nat) (h : 0 ≤ a) : Int.tmod a b = a % b := by
  exact Int.tmod_eq_emod h (Int.natCast_nonneg b)

theorem emod_unique {a x m : Int} (k : Int) (h0 : 0 ≤ x) (h1 : x < m) (h : a = x + m * k) :
    a % m = x := by
  subst h
  rw [Int.add_mul_emod_self_left]
  exact Int.emod_eq_of_lt h0 h1

theorem emod_le_self_of_nonneg {x m : Int} (hx : 0 ≤ x) (hm : 0 < m) : x % m ≤ x := by
  by_cases h : x < m
  · rw [Int.emod_eq_of_lt hx h]
  · have := Int.emod_lt_of_pos x hm
    omega

theorem tmod_spec (a : Int) (b : Nat) (hb : 0 < b) :
    -(b : Int) < a.tmod b ∧ a.tmod b < b ∧ (0 ≤ a → 0 ≤ a.tmod b) ∧ (a ≤ 0 → a.tmod b ≤ 0) ∧
      a % b = if a.tmod b < 0 then a.tmod b + b else a.tmod b := by
  have hb' : (0 : Int) < b := by exact_mod_cast hb
  have hlt := Int.tmod_lt_of_pos a hb'
  have hdef := Int.tmod_add_tdiv a b
  have hsign : (0 ≤ a → 0 ≤ a.tmod b) ∧ (a ≤ 0 → a.tmod b ≤ 0) ∧ -(b : Int) < a.tmod b := by
    cases a with
    | ofNat m =>
      have : Int.tmod (Int.ofNat m) (b : Int) = ((m % b : Nat) : Int) := rfl
      rw [this]
      refine ⟨fun _ => by positivity, fun h => ?_, by omega⟩
      have hm : m = 0 := by
        have : (m : Int) ≤ 0 := h
        omega
      subst hm
      simp
    | negSucc m =>
      have : Int.tmod (Int.negSucc m) (b : Int) = -(((m + 1) % b : Nat) : Int) := rfl
      rw [this]
      have := Nat.mod_lt (m + 1) hb
      refine ⟨fun h => ?_, fun _ => by omega, by omega⟩
      have := Int.negSucc_lt_zero m
      omega
  refine ⟨hsign.2.2, hlt, hsign.1, hsign.2.1, ?_⟩
  split
  · apply emod_unique (a.tdiv b - 1) (by omega) (by omega)
    rw [mul_sub]; omega
  · apply emod_unique (a.tdiv b) (by omega) (by omega)
    omega

theorem normalize_spec (mod : Nat) (T : IntTy) (number : Int) (hmod : validMod mod)
    (hb : 0 < T.bits) (hT : T.signed = true → (mod : Int) < 2 ^ (T.bits - 1))
    (hr : T.inRange number) : (normalize mod T number : Int) = number % mod := by
  obtain ⟨hm1, hm2⟩ := hmod
  have hm2' : mod < 2147483648 := by omega
  have hpos : 0 < mod := by omega
  obtain ⟨t1, t2, t3, t4, t5⟩ := tmod_spec number mod hpos
  have hem := Int.emod_lt_of_pos number (show (0 : Int) < mod by omega)
  have hem0 := Int.emod_nonneg number (show (mod : Int) ≠ 0 by omega)
  unfold normalize
  cases hs : T.signed with
  | true =>
    have hT' := hT hs
    have hp : (2 : Int) ^ T.bits = 2 * 2 ^ (T.bits - 1) := by
      rw [← pow_succ']; congr 1; omega
    have w1 : ∀ x : Int, -(mod : Int) ≤ x → x ≤ mod → T.wrap x = x := by
      intro x h1 h2
      apply wrap_eq_of_inRange T hb
      unfold IntTy.inRange
      rw [if_pos hs]
      omega
    unfold IntTy.inRange at hr
    rw [if_pos hs] at hr
    rw [w1 (-(mod : Int)) (by omega) (by omega), w1 mod (by omega) (by omega),
      w1 (number.tmod mod) (by omega) (by omega)]
    by_cases hc : number < -(mod : Int) ∨ number ≥ mod
    · simp only [hc, if_true]
      by_cases hn : number.tmod mod < 0
      · simp only [hn, if_true] at t5 ⊢
        rw [w1 _ (by omega) (by omega), toU32_eq (by omega) (by omega), t5]
      · simp only [hn, if_false] at t5 ⊢
        rw [toU32_eq (by omega) (by omega), t5]
    · simp only [hc, if_false]
      by_cases hn : number < 0
      · simp only [hn, if_true]
        rw [w1 _ (by omega) (by omega), toU32_eq (by omega) (by omega)]
        symm
        apply emod_unique (-1) (by omega) (by omega)
        omega
      · simp only [hn, if_false]
        rw [toU32_eq (by omega) (by omega)]
        symm
        exact Int.emod_eq_of_lt (by omega) (by omega)
  | false =>
    unfold IntTy.inRange at hr
    simp only [hs] at hr
    simp only [Bool.false_eq_true, if_false] at hr
    have hq : (0 : Int) < 2 ^ T.bits := by positivity
    have w1 : ∀ x : Int, T.wrap x = x % 2 ^ T.bits := by
      intro x; unfold IntTy.wrap; simp [hs]
    have hmw := Int.emod_lt_of_pos (mod : Int) hq
    have hmw0 := Int.emod_nonneg (mod : Int) (show (2 : Int) ^ T.bits ≠ 0 by omega)
    have hmle : (mod : Int) % 2 ^ T.bits ≤ mod := emod_le_self_of_nonneg (by omega) hq
    have ht : number.tmod mod = number % mod := Int.tmod_eq_emod hr.1 (by omega)
    have hle : number % mod ≤ number := emod_le_self_of_nonneg hr.1 (by omega)
    rw [w1, w1, w1]
    by_cases hc : number < -(mod : Int) % 2 ^ T.bits ∨ number ≥ (mod : Int) % 2 ^ T.bits
    · simp only [hc, if_true]
      rw [ht, Int.emod_eq_of_lt hem0 (by omega)]
      rw [if_neg (by omega), toU32_eq (by omega) (by omega)]
    · simp only [hc, if_false]
      rw [if_neg (by omega), toU32_eq (by omega) (by omega)]
      symm
      exact Int.emod_eq_of_lt (by omega) (by omega)

theorem normalize_lt (mod : Nat) (T : IntTy) (number : Int) (hmod : validMod mod)
    (hb : 0 < T.bits) (hT : T.signed = true → (mod : Int) < 2 ^ (T.bits - 1))
    (hr : T.inRange number) : normalize mod T number < mod := by
  have h := normalize_spec mod T number hmod hb hT hr
  have := Int.emod_lt_of_pos number (show (0 : Int) < mod by have := hmod.1; omega)
  omega

theorem normalize_u32 (mod : Nat) (x : Nat) (hmod : validMod mod) (hx : x < 4294967296) :
    normalize mod u32 (x : Int) = x % mod := by
  have h := normalize_spec mod u32 x hmod (by decide) (by intro h; cases h)
    (by unfold IntTy.inRange; simp [u32]; omega)
  have : ((x % mod : Nat) : Int) = (x : Int) % mod := by push_cast; rfl
  omega

theorem normalize_u64 (mod : Nat) (x : Nat) (hmod : validMod mod)
    (hx : x < 18446744073709551616) : normalize mod u64 (x : Int) = x % mod := by
  have h := normalize_spec mod u64 x hmod (by decide) (by intro h; cases h)
    (by unfold IntTy.inRange; simp [u64]; omega)
  have : ((x % mod : Nat) : Int) = (x : Int) % mod := by push_cast; rfl
  omega

theorem normalize_i32 (mod : Nat) (x : Int) (hmod : validMod mod)
    (h1 : -2147483648 ≤ x) (h2 : x < 2147483648) :
    (normalize mod i32 x : Int) = x % mod := by
  have h31 := hmod.2
  exact normalize_spec mod i32 x hmod (by decide) (by intro _; simp [i32]; omega)
    (by unfold IntTy.inRange; simp [i32]; omega)

theorem normalize_i32_one (mod : Nat) (hmod : validMod mod) : normalize mod i32 1 = 1 := by
  have h := normalize_i32 mod 1 hmod (by omega) (by omega)
  have h1 := hmod.1
  rw [Int.emod_eq_of_lt (by omega) (by omega)] at h
  omega

theorem normalize_i32_zero (mod : Nat) (hmod : validMod mod) : normalize mod i32 0 = 0 := by
  have h := normalize_i32 mod 0 hmod (by omega) (by omega)
  simpa using h

theorem add_assign_eq (mod a b : Nat) (hmod : validMod mod) (ha : a < mod) (hb : b < mod) :
    add_assign mod a b = (a + b) % mod := by
  obtain ⟨h1, h2⟩ := hmod
  unfold add_assign
  have hw : (a + b) % 2 ^ 32 = a + b := Nat.mod_eq_of_lt (by omega)
  simp only [hw]
  split
  · rename_i h
    have : toU32 ((↑(a + b) : Int) - mod) = a + b - mod := by
      have := @toU32_eq ((↑(a + b) : Int) - mod) (by omega) (by omega)
      omega
    rw [this]
    rw [Nat.mod_eq_sub_mod h, Nat.mod_eq_of_lt (by omega)]
  · rename_i h
    rw [Nat.mod_eq_of_lt (by omega)]

theorem sub_assign_eq (mod a b : Nat) (hmod : validMod mod) (ha : a < mod) (hb : b < mod) :
    sub_assign mod a b = (a + (mod - b)) % mod := by
  obtain ⟨h1, h2⟩ := hmod
  unfold sub_assign
  have hw : (a + mod) % 2 ^ 32 = a + mod := Nat.mod_eq_of_lt (by omega)
  simp only [hw]
  split
  · rename_i h
    have : toU32 ((↑(a + mod) : Int) - b) = a + mod - b := by
      have := @toU32_eq ((↑(a + mod) : Int) - b) (by omega) (by omega)
      omega
    rw [this, Nat.mod_eq_of_lt (by omega)]
    omega
  · rename_i h
    have : toU32 ((a : Int) - b) = a - b := by
      have := @toU32_eq ((a : Int) - b) (by omega) (by omega)
      omega
    rw [this]
    have : a + (mod - b) = (a - b) + mod := by omega
    rw [this, Nat.add_mod_right, Nat.mod_eq_of_lt (by omega)]

theorem mul_assign_eq (mod a b : Nat) (ha : a < 4294967296) (hb : b < 4294967296) :
    mul_assign mod a b = (a * b) % mod := by
  unfold mul_assign
  have : a * b < 2 ^ 64 := by
    calc a * b < 4294967296 * 4294967296 := Nat.mul_lt_mul'' ha hb
      _ = 2 ^ 64 := by norm_num
  rw [Nat.mod_eq_of_lt this]

theorem mul_assign_lt (mod a b : Nat) (hmod : 0 < mod) : mul_assign mod a b < mod :=
  Nat.mod_lt _ hmod

theorem neg_eq (mod a : Nat) (hmod : validMod mod) (ha : a < mod) :
    neg mod a = (mod - a) % mod := by
  have ⟨h1, h2⟩ := hmod
  unfold neg
  split
  · rename_i h
    have : toU32 ((mod : Int) - a) = mod - a := by
      have := @toU32_eq ((mod : Int) - a) (by omega) (by omega)
      omega
    rw [this, normalize_u32 mod _ hmod (by omega)]
  · rename_i h
    have h0 : a = 0 := by omega
    subst h0
    have := normalize_u32 mod 0 hmod (by omega)
    simpa using this

theorem pre_increment_eq (mod a : Nat) (hmod : validMod mod) (ha : a < mod) :
    pre_increment mod a = (a + 1) % mod := by
  have ⟨h1, h2⟩ := hmod
  unfold pre_increment
  have hw : (a + 1) % 2 ^ 32 = a + 1 := Nat.mod_eq_of_lt (by omega)
  simp only [hw]
  split
  · rename_i h
    rw [h, Nat.mod_self]
  · rw [Nat.mod_eq_of_lt (by omega)]

theorem pre_decrement_eq (mod a : Nat) (hmod : validMod mod) (ha : a < mod) :
    pre_decrement mod a = (a + (mod - 1)) % mod := by
  have ⟨h1, h2⟩ := hmod
  unfold pre_decrement
  split
  · rename_i h
    subst h
    have := @toU32_eq ((mod : Int) - 1) (by omega) (by omega)
    rw [Nat.zero_add, Nat.mod_eq_of_lt (by omega)]
    omega
  · rename_i h
    have := @toU32_eq ((a : Int) - 1) (by omega) (by omega)
    have e : a + (mod - 1) = (a - 1) + mod := by omega
    rw [e, Nat.add_mod_right, Nat.mod_eq_of_lt (by omega)]
    omega

theorem post_increment_eq (mod a : Nat) (hmod : validMod mod) (ha : a < mod) :
    post_increment mod a = (a + 1) % mod := by
  have ⟨h1, h2⟩ := hmod
  unfold post_increment
  have hw : (a + 1) % 2 ^ 32 = a + 1 := Nat.mod_eq_of_lt (by omega)
  simp only [hw]
  split
  · rename_i h
    rw [normalize_u32 mod _ hmod (by omega)]
  · rename_i h
    have e : a + 1 = mod := by omega
    have := normalize_u32 mod 0 hmod (by omega)
    rw [e, Nat.mod_self]
    simpa using this

theorem post_decrement_eq (mod a : Nat) (hmod : validMod mod) (ha : a < mod) :
    post_decrement mod a = (a + (mod - 1)) % mod := by
  have ⟨h1, h2⟩ := hmod
  unfold post_decrement
  split
  · rename_i h
    have t := @toU32_eq ((a : Int) - 1) (by omega) (by omega)
    have : toU32 ((a : Int) - 1) = a - 1 := by omega
    rw [this, normalize_u32 mod _ hmod (by omega)]
    have e : a + (mod - 1) = (a - 1) + mod := by omega
    rw [e, Nat.add_mod_right]
  · rename_i h
    have h0 : a = 0 := by omega
    subst h0
    have t := @toU32_eq ((mod : Int) - 1) (by omega) (by omega)
    have : toU32 ((mod : Int) - 1) = mod - 1 := by omega
    rw [this, normalize_u32 mod _ hmod (by omega), Nat.zero_add]

theorem add_mod_assoc (mod a b c : Nat) : ((a + b) % mod + c) % mod = (a + (b + c) % mod) % mod := by
  rw [Nat.mod_add_mod, Nat.add_mod_mod, Nat.add_assoc]

theorem div_assign_lt (C : Constants) (tb : Tables) (fuel value other r : Nat)
    (hmod : validMod C.MOD) (h : div_assign C tb fuel value other = .ok r) : r < C.MOD := by
  have hpos : 0 < C.MOD := by have := hmod.1; omega
  unfold div_assign at h
  split at h
  · split at h
    · injection h with h
      rw [← h]
      exact mul_assign_lt _ _ _ hpos
    · cases h
  · split at h
    · injection h with h
      rw [← h]
      exact mul_assign_lt _ _ _ hpos
    all_goals cases h

/-- C2: the range invariant `value < mod` is kept by `+=`, `-=`, `*=`, `/=` (when it
returns), prefix and postfix `++` and `--` and unary minus, on residues in range under
a valid modulus, and the `uint32_t` intermediates `value + other.value`, `value + mod`
and `value + 1` do not wrap. -/
theorem C2_range_invariant (C : Constants) (tb : Tables) (fuel a b : Nat)
    (hmod : validMod C.MOD) (ha : a < C.MOD) (hb : b < C.MOD) :
    add_assign C.MOD a b < C.MOD ∧ sub_assign C.MOD a b < C.MOD ∧
    mul_assign C.MOD a b < C.MOD ∧
    (∀ r, div_assign C tb fuel a b = .ok r → r < C.MOD) ∧
    pre_increment C.MOD a < C.MOD ∧ pre_decrement C.MOD a < C.MOD ∧
    post_increment C.MOD a < C.MOD ∧ post_decrement C.MOD a < C.MOD ∧
    neg C.MOD a < C.MOD ∧
    a + b < 2 ^ 32 ∧ a + C.MOD < 2 ^ 32 ∧ a + 1 < 2 ^ 32 := by
  have hpos : 0 < C.MOD := by have := hmod.1; omega
  have h2 := hmod.2
  rw [add_assign_eq _ _ _ hmod ha hb, sub_assign_eq _ _ _ hmod ha hb,
    pre_increment_eq _ _ hmod ha, pre_decrement_eq _ _ hmod ha,
    post_increment_eq _ _ hmod ha, post_decrement_eq _ _ hmod ha, neg_eq _ _ hmod ha]
  refine ⟨Nat.mod_lt _ hpos, Nat.mod_lt _ hpos, mul_assign_lt _ _ _ hpos,
    fun r h => div_assign_lt C tb fuel a b r hmod h, Nat.mod_lt _ hpos, Nat.mod_lt _ hpos,
    Nat.mod_lt _ hpos, Nat.mod_lt _ hpos, Nat.mod_lt _ hpos, ?_, ?_, ?_⟩ <;> omega

/-- C3: the ring laws of the operators `+`, `*` and unary minus on residues in range
under a valid modulus: associativity of `+`, distributivity of `*` over `+`,
`a + (-a) = 0` and `a * 1 = a`. -/
theorem C3_ring_laws (mod a b c : Nat) (hmod : validMod mod)
    (ha : a < mod) (hb : b < mod) (hc : c < mod) :
    add mod (add mod a b) c = add mod a (add mod b c) ∧
    mul mod a (add mod b c) = add mod (mul mod a b) (mul mod a c) ∧
    add mod a (neg mod a) = 0 ∧ eq_number mod (add mod a (neg mod a)) i32 0 = true ∧
    mul_number mod a i32 1 = a := by
  have hpos : 0 < mod := by have := hmod.1; omega
  have h2 := hmod.2
  have hlt : ∀ x, x % mod < mod := fun x => Nat.mod_lt _ hpos
  have hneg : add mod a (neg mod a) = 0 := by
    unfold add
    rw [neg_eq _ _ hmod ha, add_assign_eq _ _ _ hmod ha (hlt _), Nat.add_mod_mod]
    have : a + (mod - a) = mod := by omega
    rw [this, Nat.mod_self]
  refine ⟨?_, ?_, hneg, ?_, ?_⟩
  · unfold add
    rw [add_assign_eq _ _ _ hmod ha hb, add_assign_eq _ _ _ hmod hb hc,
      add_assign_eq _ _ _ hmod (hlt _) hc, add_assign_eq _ _ _ hmod ha (hlt _)]
    exact add_mod_assoc mod a b c
  · unfold add mul
    rw [add_assign_eq _ _ _ hmod hb hc, mul_assign_eq _ a _ (by omega) (by have := hlt (b + c); omega),
      mul_assign_eq _ a b (by omega) (by omega), mul_assign_eq _ a c (by omega) (by omega),
      add_assign_eq _ _ _ hmod (hlt _) (hlt _)]
    rw [Nat.mul_mod_mod, ← Nat.add_mod, Nat.mul_add]
  · unfold eq_number
    rw [hneg, normalize_i32_zero mod hmod]
    decide
  · unfold mul_number
    rw [normalize_i32_one mod hmod, mul_assign_eq _ a 1 (by omega) (by omega), Nat.mul_one,
      Nat.mod_eq_of_lt ha]

/-- Witness of C2 at modulus 7 with residues 3 and 5. -/
theorem C2_range_invariant_witness :
    validMod 7 ∧ 3 < 7 ∧ 5 < 7 ∧ add_assign 7 3 5 < 7 ∧ sub_assign 7 3 5 < 7 ∧
    mul_assign 7 3 5 < 7 ∧ pre_increment 7 3 < 7 ∧ neg 7 3 < 7 :=
  have h := C2_range_invariant ⟨7, false, 0⟩ ⟨[0], [0]⟩ 10 3 5 (by decide) (by decide) (by decide)
  ⟨by decide, by decide, by decide, h.1, h.2.1, h.2.2.1, h.2.2.2.2.1, h.2.2.2.2.2.2.2.2.1⟩

/-- Witness of C3 at modulus 7 with residues 3, 5 and 6. -/
theorem C3_ring_laws_witness :
    validMod 7 ∧ add 7 (add 7 3 5) 6 = add 7 3 (add 7 5 6) ∧
    mul 7 3 (add 7 5 6) = add 7 (mul 7 3 5) (mul 7 3 6) ∧ add 7 3 (neg 7 3) = 0 ∧
    mul_number 7 3 i32 1 = 3 :=
  have h := C3_ring_laws 7 3 5 6 (by decide) (by decide) (by decide) (by decide)
  ⟨by decide, h.1, h.2.1, h.2.2.1, h.2.2.2.2⟩

/-- C1: under the shipped modulus 1000000007 the 16-bit signed input `-1` is a value of
its type, yet `normalize` returns 4294953478, which is not below the modulus (and the
8-bit signed input `-1` gives 6 instead of 1000000006); the 32-bit call of the spec under
modulus 7 gives 6. -/
theorem C1_normalize_narrow_signed :
    validMod Mint.MOD ∧ i16.inRange (-1) ∧ normalize Mint.MOD i16 (-1) = 4294953478 ∧
    ¬ normalize Mint.MOD i16 (-1) < Mint.MOD ∧ normalize Mint.MOD i8 (-1) = 6 ∧
    normalize 7 i32 (-1) = 6 := by
  decide

theorem power_loop_spec (mod : Nat) (hmod : 0 < mod) (hmod2 : mod ≤ 4294967296) :
    ∀ (fuel res x deg : Nat), res < mod → x < 4294967296 → deg < 2 ^ fuel →
      power_loop mod (fuel + 1) res x (deg : Int) = .ok (res * x ^ deg % mod) := by
  intro fuel
  induction fuel with
  | zero =>
    intro res x deg hres _ hdeg
    have h0 : deg = 0 := by simpa using hdeg
    subst h0
    simp [power_loop, Nat.mod_eq_of_lt hres]
  | succ n ih =>
    intro res x deg hres hx hdeg
    rw [power_loop]
    by_cases h0 : (deg : Int) = 0
    · have h0' : deg = 0 := by exact_mod_cast h0
      subst h0'
      simp [Nat.mod_eq_of_lt hres]
    · rw [if_neg h0]
      have hq : ((deg : Int) / 2) = ((deg / 2 : Nat) : Int) := by push_cast; rfl
      have hxx : mul_assign mod x x = x * x % mod := mul_assign_eq mod x x hx hx
      have hxlt : x * x % mod < 4294967296 := by
        have := Nat.mod_lt (x * x) hmod; omega
      have hdq : deg / 2 < 2 ^ n := by
        rw [pow_succ] at hdeg; omega
      have h2 : x * x % mod ≡ x * x [MOD mod] := Nat.mod_modEq _ _
      rw [hq, hxx]
      by_cases hodd : (deg : Int) % 2 = 1
      · rw [if_pos hodd]
        have hrx : mul_assign mod res x = res * x % mod :=
          mul_assign_eq mod res x (by omega) hx
        rw [hrx, ih _ _ _ (Nat.mod_lt _ hmod) hxlt hdq]
        congr 1
        have h1 : res * x % mod ≡ res * x [MOD mod] := Nat.mod_modEq _ _
        have h3 := h1.mul (h2.pow (deg / 2))
        have hd : deg = 2 * (deg / 2) + 1 := by omega
        have e : res * x * (x * x) ^ (deg / 2) = res * x ^ deg := by
          conv_rhs => rw [hd]
          rw [pow_succ, pow_mul, sq]; ring
        rw [e] at h3
        exact h3
      · rw [if_neg hodd, ih _ _ _ hres hxlt hdq]
        congr 1
        have h1 : res ≡ res [MOD mod] := Nat.ModEq.refl _
        have h3 := h1.mul (h2.pow (deg / 2))
        have hd : deg = 2 * (deg / 2) := by omega
        have e : res * (x * x) ^ (deg / 2) = res * x ^ deg := by
          conv_rhs => rw [hd]
          rw [pow_mul, sq]
        rw [e] at h3
        exact h3

theorem power_loop_fuel (mod : Nat) (hmod : 0 < mod) (hmod2 : mod ≤ 4294967296)
    (fuel res x deg : Nat) (hres : res < mod) (hx : x < 4294967296)
    (hdeg : deg < 2 ^ 63) (hfuel : 64 ≤ fuel) :
    power_loop mod fuel res x (deg : Int) = .ok (res * x ^ deg % mod) := by
  obtain ⟨k, rfl⟩ : ∃ k, fuel = k + 1 := ⟨fuel - 1, by omega⟩
  apply power_loop_spec mod hmod hmod2 k res x deg hres hx
  calc deg < 2 ^ 63 := hdeg
    _ ≤ 2 ^ k := Nat.pow_le_pow_right (by norm_num) (by omega)

theorem power_nonneg (C : Constants) (tb : Tables) (hmod : validMod C.MOD)
    (fuel x : Nat) (U : IntTy) (deg : Nat) (hx : x < 4294967296)
    (hdeg : deg < 2 ^ 63) (hfuel : 64 ≤ fuel) :
    power C tb fuel x U (deg : Int) = .ok (x ^ deg % C.MOD) := by
  have h1 := hmod.1
  have h2 := hmod.2
  unfold power
  rw [if_neg (by omega), normalize_i32_one _ hmod,
    power_loop_fuel C.MOD (by omega) (by omega) fuel 1 x deg (by omega) hx hdeg hfuel, Nat.one_mul]

theorem power_nonneg_wide (C : Constants) (tb : Tables) (hmod : validMod C.MOD)
    (fuel x : Nat) (U : IntTy) (deg : Nat) (hx : x < 4294967296)
    (hdeg : deg < 2 ^ 64) (hfuel : 65 ≤ fuel) :
    power C tb fuel x U (deg : Int) = .ok (x ^ deg % C.MOD) := by
  have h1 := hmod.1
  have h2 := hmod.2
  obtain ⟨k, rfl⟩ : ∃ k, fuel = k + 1 := ⟨fuel - 1, by omega⟩
  unfold power
  rw [if_neg (by omega), normalize_i32_one _ hmod,
    power_loop_spec C.MOD (by omega) (by omega) k 1 x deg (by omega) hx
      (lt_of_lt_of_le hdeg (Nat.pow_le_pow_right (by norm_num) (by omega))), Nat.one_mul]

/-- Under a valid modulus, for every constructed base `a` (any `uint32_t` value, in
particular every residue) and every exponent `0 ≤ e < 2 ^ 64` of any exponent type,
`power` returns `a ^ e mod modulus` once the fuel covers the at most 64 iterations of
the loop and its exit test; in particular the result for the exponent 0 is 1, also for
`a = 0`. -/
theorem power_nonneg_uint32 (C : Constants) (tb : Tables) (fuel a : Nat) (U : IntTy) (e : Int)
    (hmod : validMod C.MOD) (ha : a < 2 ^ 32) (he0 : 0 ≤ e) (he : e < 2 ^ 64)
    (hfuel : 65 ≤ fuel) :
    power C tb fuel a U e = .ok (a ^ e.toNat % C.MOD) ∧ power C tb fuel a U 0 = .ok 1 ∧
    power C tb fuel 0 U 0 = .ok 1 := by
  have h1 := hmod.1
  have hz : ∀ y : Nat, y < 4294967296 → power C tb fuel y U 0 = .ok 1 := by
    intro y hy
    have := power_nonneg_wide C tb hmod fuel y U 0 hy (by norm_num) hfuel
    simpa [Nat.mod_eq_of_lt h1] using this
  refine ⟨?_, hz a (by simpa using ha), hz 0 (by norm_num)⟩
  have hcast : e = ((e.toNat : Nat) : Int) := by omega
  have hlt : e.toNat < 2 ^ 64 := by
    have : (e.toNat : Int) < 2 ^ 64 := by omega
    exact_mod_cast this
  have := power_nonneg_wide C tb hmod fuel a U e.toNat (by simpa using ha) hlt hfuel
  rw [← hcast] at this
  exact this

theorem module_is_prime_loop_spec (mod : Nat) (h2 : 2 ≤ mod) (h31 : mod < 2147483648) :
    ∀ (fuel i : Nat), 2 ≤ i → i ≤ 46341 → (∀ d, 2 ≤ d → d < i → ¬ d ∣ mod) →
      46342 - i ≤ fuel →
      module_is_prime_loop mod fuel i = .ok (decide (Nat.Prime mod)) := by
  intro fuel
  induction fuel with
  | zero => intro i _ hi _ hf; omega
  | succ n ih =>
    intro i hi2 hi hd hf
    rw [module_is_prime_loop]
    have hsq : i * i < 2 ^ 32 := by
      calc i * i ≤ 46341 * 46341 := Nat.mul_le_mul hi hi
        _ < 2 ^ 32 := by norm_num
    rw [Nat.mod_eq_of_lt hsq]
    by_cases hle : i * i ≤ mod
    · rw [if_pos hle]
      have hi' : i ≤ 46340 := by
        by_contra hc
        have h41 : i = 46341 := by omega
        subst h41
        omega
      by_cases hdiv : mod % i = 0
      · rw [if_pos hdiv]
        have hnp : ¬ Nat.Prime mod := by
          intro hp
          have hdvd : i ∣ mod := Nat.dvd_of_mod_eq_zero hdiv
          rcases (Nat.dvd_prime hp).1 hdvd with h | h
          · omega
          · subst h
            have : i * 2 ≤ i * i := Nat.mul_le_mul_left i hi2
            omega
        simp [hnp]
      · rw [if_neg hdiv]
        have hw : (i + 1) % 2 ^ 32 = i + 1 := Nat.mod_eq_of_lt (by omega)
        rw [hw]
        apply ih (i + 1) (by omega) (by omega) _ (by omega)
        intro d hd2 hdlt
        by_cases hdi : d = i
        · subst hdi
          intro hdvd
          exact hdiv (Nat.mod_eq_zero_of_dvd hdvd)
        · exact hd d hd2 (by omega)
    · rw [if_neg hle]
      have hp : Nat.Prime mod := by
        rw [Nat.prime_def_le_sqrt]
        refine ⟨h2, fun m hm2 hms => hd m hm2 ?_⟩
        have hmm : m * m ≤ mod := Nat.le_sqrt.1 hms
        by_contra hc
        have : i * i ≤ m * m := Nat.mul_le_mul (by omega) (by omega)
        omega
      simp [hp]

theorem module_is_prime_spec (mod fuel : Nat) (hmod : validMod mod) (hfuel : 46340 ≤ fuel) :
    module_is_prime mod fuel = .ok (decide (Nat.Prime mod)) := by
  have h1 := hmod.1
  have h2 := hmod.2
  unfold module_is_prime
  apply module_is_prime_loop_spec mod (by omega) (by omega) fuel 2 (by omega) (by omega) _
    (by omega)
  intro d hd1 hd2
  omega

theorem pow_mod_of_power_loop (p a e : Nat) (hp : 1 < p) (hp2 : p ≤ 4294967296)
    (ha : a < 4294967296) (he : e < 2 ^ 63) :
    power_loop p 64 1 a (e : Int) = .ok (a ^ e % p) := by
  rw [power_loop_fuel p (by omega) hp2 64 1 a e hp ha he (le_refl _), Nat.one_mul]

theorem lucas_test (p a : Nat) (hp : 1 < p) (h1 : a ^ (p - 1) % p = 1)
    (hq : ∀ q : Nat, q.Prime → q ∣ p - 1 → a ^ ((p - 1) / q) % p ≠ 1) : p.Prime := by
  have hone : (1 : Nat) % p = 1 := Nat.mod_eq_of_lt hp
  apply lucas_primality p (a : ZMod p)
  · have : ((a ^ (p - 1) : Nat) : ZMod p) = ((1 : Nat) : ZMod p) := by
      rw [ZMod.natCast_eq_natCast_iff', h1, hone]
    exact_mod_cast this
  · intro q hqp hqd hc
    apply hq q hqp hqd
    have : ((a ^ ((p - 1) / q) : Nat) : ZMod p) = ((1 : Nat) : ZMod p) := by
      exact_mod_cast hc
    rw [ZMod.natCast_eq_natCast_iff', hone] at this
    exact this

theorem lucas_test_list (p a : Nat) (qs : List Nat) (hp : 1 < p) (hp2 : p ≤ 4294967296)
    (ha : a < 4294967296) (hprimes : ∀ q ∈ qs, q.Prime) (hprod : qs.prod = p - 1)
    (h1 : power_loop p 64 1 a ((p - 1 : Nat) : Int) = .ok 1)
    (hq : ∀ q ∈ qs, power_loop p 64 1 a (((p - 1) / q : Nat) : Int) ≠ .ok 1) : p.Prime := by
  have hb : ∀ e, e ≤ p - 1 → e < 2 ^ 63 := fun e he => by omega
  apply lucas_test p a hp
  · rw [pow_mod_of_power_loop p a (p - 1) hp hp2 ha (hb _ (le_refl _))] at h1
    injection h1
  · intro q hqp hqd hc
    rw [← hprod] at hqd
    obtain ⟨r, hr, hqr⟩ := (Prime.dvd_prod_iff (Nat.prime_iff.1 hqp)).1 hqd
    have hqr' : q = r := (Nat.prime_dvd_prime_iff_eq hqp (hprimes r hr)).1 hqr
    subst hqr'
    apply hq q hr
    rw [pow_mod_of_power_loop p a _ hp hp2 ha (hb _ (Nat.div_le_self _ _)), hc]

theorem prime_148721 : Nat.Prime 148721 := by norm_num

theorem prime_500000003 : Nat.Prime 500000003 := by
  apply lucas_test_list 500000003 2 [2, 41, 41, 148721] (by norm_num) (by norm_num)
    (by norm_num) _ (by norm_num) (by decide!) (by decide!)
  intro q hq
  simp only [List.mem_cons, List.mem_singleton, List.not_mem_nil, or_false] at hq
  rcases hq with rfl | rfl | rfl | rfl
  · norm_num
  · norm_num
  · norm_num
  · exact prime_148721

theorem prime_Mint_MOD : Nat.Prime Mint.MOD := by
  apply lucas_test_list 1000000007 5 [2, 500000003] (by norm_num) (by norm_num)
    (by norm_num) _ (by norm_num) (by decide!) (by decide!)
  intro q hq
  simp only [List.mem_cons, List.mem_singleton, List.not_mem_nil, or_false] at hq
  rcases hq with rfl | rfl
  · norm_num
  · exact prime_500000003

theorem prime_mersenne31 : Nat.Prime 2147483647 := by
  apply lucas_test_list 2147483647 7 [2, 3, 3, 7, 11, 31, 151, 331] (by norm_num)
    (by norm_num) (by norm_num) _ (by norm_num) (by decide!) (by decide!)
  intro q hq
  simp only [List.mem_cons, List.mem_singleton, List.not_mem_nil, or_false] at hq
  rcases hq with rfl | rfl | rfl | rfl | rfl | rfl | rfl | rfl <;> norm_num

theorem fermat_inverse (p a : Nat) (hp : Nat.Prime p) (ha : ¬ p ∣ a) :
    a ^ (p - 2) % p * a % p = 1 := by
  have hcop : Nat.Coprime a p := (Nat.Coprime.symm ((Nat.Prime.coprime_iff_not_dvd hp).2 ha))
  have h := Nat.ModEq.pow_totient hcop
  rw [Nat.totient_prime hp] at h
  have h2 := hp.two_le
  have e : a ^ (p - 1) = a ^ (p - 2) * a := by
    rw [← pow_succ]; congr 1; omega
  rw [e] at h
  have h1 : (1 : Nat) % p = 1 := Nat.mod_eq_of_lt (by omega)
  unfold Nat.ModEq at h
  rw [Nat.mod_mul_mod, h, h1]

theorem inverse_fermat_spec (mod fuel number : Nat) (hmod : validMod mod)
    (hn : number < 4294967296) (hfuel : 64 ≤ fuel) :
    inverse_fermat mod fuel number = .ok ((number % mod) ^ (mod - 2) % mod) := by
  have h1 := hmod.1
  have h2 := hmod.2
  unfold inverse_fermat
  rw [normalize_i32_one _ hmod, normalize_u32 _ _ hmod hn,
    i32_wrap_eq (by omega) (by omega)]
  have e : (mod : Int) - 2 = ((mod - 2 : Nat) : Int) := by omega
  rw [e, power_loop_fuel mod (by omega) (by omega) fuel 1 _ _ (by omega)
    (by have := Nat.mod_lt number (show 0 < mod by omega); omega) (by omega) hfuel, Nat.one_mul]

theorem inverse_prime_spec (mod fuel number : Nat) (hmod : validMod mod) (hp : Nat.Prime mod)
    (hn : number < 4294967296) (hfuel : 46340 ≤ fuel) :
    inverse mod fuel number = .ok ((number % mod) ^ (mod - 2) % mod) := by
  unfold inverse
  rw [module_is_prime_spec mod fuel hmod hfuel]
  simp only [hp, decide_True]
  exact inverse_fermat_spec mod fuel number hmod hn (by omega)

theorem inverse_composite_eq (mod fuel number : Nat) (hmod : validMod mod) (hp : ¬ Nat.Prime mod)
    (hfuel : 46340 ≤ fuel) :
    inverse mod fuel number = inverse_euclid mod fuel number := by
  unfold inverse
  rw [module_is_prime_spec mod fuel hmod hfuel]
  simp only [hp, decide_False]

theorem calculate_fact_fold (mod max : Nat) (hmod : 1 < mod) (hmod2 : mod ≤ 4294967296)
    (hmax : max < 4294967296) :
    ∀ n, n ≤ max →
      ((List.range' 1 n).foldl
        (fun fact i => fact.set i ((fact.getD (i - 1) 0 * i) % 2 ^ 64 % mod))
        ((List.replicate (max + 1) 0).set 0 1)).length = max + 1 ∧
      ∀ i, i ≤ n →
        ((List.range' 1 n).foldl
          (fun fact i => fact.set i ((fact.getD (i - 1) 0 * i) % 2 ^ 64 % mod))
          ((List.replicate (max + 1) 0).set 0 1))[i]? = some (i.factorial % mod) := by
  intro n
  induction n with
  | zero =>
    intro _
    refine ⟨by simp, ?_⟩
    intro i hi
    have hi0 : i = 0 := by omega
    subst hi0
    simp [List.getElem?_set, Nat.mod_eq_of_lt hmod]
  | succ n ih =>
    intro hn
    obtain ⟨hlen, hval⟩ := ih (by omega)
    rw [List.range'_concat, List.foldl_append]
    simp only [List.foldl_cons, List.foldl_nil, Nat.one_mul]
    generalize hL : (List.range' 1 n).foldl
        (fun fact i => fact.set i ((fact.getD (i - 1) 0 * i) % 2 ^ 64 % mod))
        ((List.replicate (max + 1) 0).set 0 1) = L at hlen hval
    refine ⟨by simp [hlen], ?_⟩
    intro i hi
    have hprev : L.getD (1 + n - 1) 0 = n.factorial % mod := by
      have e : 1 + n - 1 = n := by omega
      rw [e, List.getD_eq_getElem?_getD, hval n (le_refl n)]
      rfl
    rw [hprev, List.getElem?_set]
    by_cases hin : 1 + n = i
    · rw [if_pos hin, if_pos (by omega)]
      subst hin
      congr 1
      have hlt : n.factorial % mod * (1 + n) < 2 ^ 64 := by
        have := Nat.mod_lt n.factorial (show 0 < mod by omega)
        calc n.factorial % mod * (1 + n) < 4294967296 * 4294967296 :=
              Nat.mul_lt_mul'' (by omega) (by omega)
          _ = 2 ^ 64 := by norm_num
      rw [Nat.mod_eq_of_lt hlt, Nat.mod_mul_mod, Nat.add_comm 1 n, Nat.factorial_succ,
        Nat.mul_comm]
    · rw [if_neg hin]
      exact hval i (by omega)

theorem calculate_fact_spec (C : Constants) (hmod : validMod C.MOD)
    (hmax : C.PRECALC_MAX < 4294967296) :
    (calculate_fact C).length = C.PRECALC_MAX + 1 ∧
    ∀ i, i ≤ C.PRECALC_MAX → (calculate_fact C)[i]? = some (i.factorial % C.MOD) := by
  have h1 := hmod.1
  have h2 := hmod.2
  exact calculate_fact_fold C.MOD C.PRECALC_MAX h1 (by omega) hmax C.PRECALC_MAX (le_refl _)

theorem calculate_ifact_fold (mod max inv : Nat) (hmod : 1 < mod) (hmod2 : mod ≤ 4294967296)
    (hmax : max < 4294967296) (hinv : inv < mod) :
    ∀ k, k ≤ max →
      ((List.range' (max - k + 1) k).reverse.foldl
        (fun ifact i => ifact.set (i - 1) ((ifact.getD i 0 * i) % 2 ^ 64 % mod))
        ((List.replicate (max + 1) 0).set max inv)).length = max + 1 ∧
      ∀ l, max - k ≤ l → l ≤ max → ∃ v,
        ((List.range' (max - k + 1) k).reverse.foldl
          (fun ifact i => ifact.set (i - 1) ((ifact.getD i 0 * i) % 2 ^ 64 % mod))
          ((List.replicate (max + 1) 0).set max inv))[l]? = some v ∧ v < mod ∧
        v * l.factorial ≡ inv * max.factorial [MOD mod] := by
  intro k
  induction k with
  | zero =>
    intro _
    refine ⟨by simp, ?_⟩
    intro l hl1 hl2
    have hl : l = max := by omega
    subst hl
    exact ⟨inv, by simp [List.getElem?_set], hinv, Nat.ModEq.refl _⟩
  | succ k ih =>
    intro hk
    obtain ⟨hlen, hval⟩ := ih (by omega)
    have hs : max - (k + 1) + 1 = max - k := by omega
    rw [hs, List.range'_succ, List.reverse_cons, List.foldl_append]
    simp only [List.foldl_cons, List.foldl_nil]
    generalize hL : (List.range' (max - k + 1) k).reverse.foldl
        (fun ifact i => ifact.set (i - 1) ((ifact.getD i 0 * i) % 2 ^ 64 % mod))
        ((List.replicate (max + 1) 0).set max inv) = L at hlen hval
    refine ⟨by simp [hlen], ?_⟩
    intro l hl1 hl2
    obtain ⟨v, hv, hvlt, hvm⟩ := hval (max - k) (le_refl _) (by omega)
    have hprev : L.getD (max - k) 0 = v := by
      rw [List.getD_eq_getElem?_getD, hv]
      rfl
    rw [hprev, List.getElem?_set]
    by_cases hin : max - k - 1 = l
    · rw [if_pos hin, if_pos (by omega)]
      have hlt : v * (max - k) < 2 ^ 64 := by
        calc v * (max - k) < 4294967296 * 4294967296 :=
              Nat.mul_lt_mul'' (by omega) (by omega)
          _ = 2 ^ 64 := by norm_num
      refine ⟨_, rfl, ?_, ?_⟩
      · rw [Nat.mod_eq_of_lt hlt]
        exact Nat.mod_lt _ (by omega)
      · rw [Nat.mod_eq_of_lt hlt]
        have e : max - k = l + 1 := by omega
        rw [e] at hvm ⊢
        have h1 : v * (l + 1) % mod ≡ v * (l + 1) [MOD mod] := Nat.mod_modEq _ _
        have h2 := h1.mul_right l.factorial
        refine h2.trans ?_
        have e2 : v * (l + 1) * l.factorial = v * (l + 1).factorial := by
          rw [Nat.factorial_succ]; ring
        rw [e2]
        exact hvm
    · rw [if_neg hin]
      exact hval l (by omega) hl2

theorem calculate_ifact_spec (C : Constants) (inv : Nat) (hmod : validMod C.MOD)
    (hmax : C.PRECALC_MAX < 4294967296) (hinv : inv < C.MOD) :
    (calculate_ifact C inv).length = C.PRECALC_MAX + 1 ∧
    ∀ l, l ≤ C.PRECALC_MAX → ∃ v, (calculate_ifact C inv)[l]? = some v ∧ v < C.MOD ∧
      v * l.factorial ≡ inv * C.PRECALC_MAX.factorial [MOD C.MOD] := by
  have h1 := hmod.1
  have h2 := hmod.2
  have h := calculate_ifact_fold C.MOD C.PRECALC_MAX inv h1 (by omega) hmax hinv
    C.PRECALC_MAX (le_refl _)
  have e : C.PRECALC_MAX - C.PRECALC_MAX + 1 = 1 := by omega
  rw [e] at h
  exact ⟨h.1, fun l hl => h.2 l (by omega) hl⟩

theorem calculate_factorials_spec (C : Constants) (fuel : Nat) (hmod : validMod C.MOD)
    (hp : Nat.Prime C.MOD) (hmax : C.PRECALC_MAX < C.MOD) (hfuel : 46340 ≤ fuel) :
    ∃ tb, calculate_factorials C fuel = .ok tb ∧
      (∀ i, i ≤ C.PRECALC_MAX → tb.fact[i]? = some (i.factorial % C.MOD)) ∧
      (∀ l, l ≤ C.PRECALC_MAX → ∃ v, tb.ifact[l]? = some v ∧ v < C.MOD ∧
        v * l.factorial % C.MOD = 1) := by
  have h1 := hmod.1
  have h2 := hmod.2
  have hpos : 0 < C.MOD := by omega
  obtain ⟨_, hfact⟩ := calculate_fact_spec C hmod (by omega)
  have hlast : (calculate_fact C).getD C.PRECALC_MAX 0 = C.PRECALC_MAX.factorial % C.MOD := by
    rw [List.getD_eq_getElem?_getD, hfact _ (le_refl _)]
    rfl
  have hinv := inverse_prime_spec C.MOD fuel (C.PRECALC_MAX.factorial % C.MOD) hmod hp
    (by have := Nat.mod_lt C.PRECALC_MAX.factorial hpos; omega) hfuel
  rw [Nat.mod_mod] at hinv
  have hnd : ¬ C.MOD ∣ C.PRECALC_MAX.factorial := by
    rw [Nat.Prime.dvd_factorial hp]
    omega
  have hnd' : ¬ C.MOD ∣ C.PRECALC_MAX.factorial % C.MOD := by
    intro h
    exact hnd ((Nat.dvd_mod_iff (dvd_refl _)).1 h)
  have hone := fermat_inverse C.MOD (C.PRECALC_MAX.factorial % C.MOD) hp hnd'
  obtain ⟨_, hifact⟩ := calculate_ifact_spec C
    ((C.PRECALC_MAX.factorial % C.MOD) ^ (C.MOD - 2) % C.MOD) hmod (by omega)
    (Nat.mod_lt _ hpos)
  refine ⟨⟨calculate_fact C, calculate_ifact C
    ((C.PRECALC_MAX.factorial % C.MOD) ^ (C.MOD - 2) % C.MOD)⟩, ?_, hfact, ?_⟩
  · unfold calculate_factorials
    simp only [hlast, hinv]
  · intro l hl
    obtain ⟨v, hv, hvlt, hvm⟩ := hifact l hl
    refine ⟨v, hv, hvlt, ?_⟩
    unfold Nat.ModEq at hvm
    rw [hvm, ← Nat.mul_mod_mod]
    exact hone

theorem initialize_policy_accepted (C : Constants) (fuel : Nat) (tb : Tables)
    (h : initialize_policy C fuel = .accepted (.ok tb)) :
    validMod C.MOD ∧ module_is_prime C.MOD fuel = .ok true ∧
    (C.NEED_PRECALC = true → calculate_factorials C fuel = .ok tb) := by
  unfold initialize_policy at h
  split at h
  · cases h
  · rename_i hv
    have hv' : validMod C.MOD := by
      unfold validMod
      exact not_not.1 hv
    split at h
    · rename_i hm
      refine ⟨hv', hm, fun hn => ?_⟩
      rw [if_neg (by simp [hn])] at h
      injection h with h
    all_goals cases h

theorem initialize_policy_spec (C : Constants) (fuel : Nat) (tb : Tables)
    (h : initialize_policy C fuel = .accepted (.ok tb)) :
    validMod C.MOD ∧ (C.NEED_PRECALC = true →
      module_is_prime C.MOD fuel = .ok true ∧ calculate_factorials C fuel = .ok tb) := by
  obtain ⟨h1, h2, h3⟩ := initialize_policy_accepted C fuel tb h
  exact ⟨h1, fun hn => ⟨h2, h3 hn⟩⟩

theorem initialize_policy_prime (C : Constants) (fuel : Nat) (hmod : validMod C.MOD)
    (hp : Nat.Prime C.MOD) (hn : C.NEED_PRECALC = true) (hfuel : 46340 ≤ fuel) :
    initialize_policy C fuel = .accepted (calculate_factorials C fuel) := by
  unfold initialize_policy
  rw [if_neg (by unfold validMod at hmod; exact not_not.2 hmod),
    module_is_prime_spec C.MOD fuel hmod hfuel]
  simp [hp, hn]

theorem initialize_policy_prime_no_precalc (C : Constants) (fuel : Nat)
    (hmod : validMod C.MOD) (hp : Nat.Prime C.MOD) (hn : C.NEED_PRECALC = false)
    (hfuel : 46340 ≤ fuel) :
    initialize_policy C fuel = .accepted (.ok ⟨List.replicate (C.PRECALC_MAX + 1) 0,
      List.replicate (C.PRECALC_MAX + 1) 0⟩) := by
  unfold initialize_policy
  rw [if_neg (by unfold validMod at hmod; exact not_not.2 hmod),
    module_is_prime_spec C.MOD fuel hmod hfuel]
  simp [hp, hn]

theorem div_assign_prime_spec (C : Constants) (tb : Tables) (fuel a b : Nat)
    (hmod : validMod C.MOD) (hp : Nat.Prime C.MOD)
    (htb : C.NEED_PRECALC = true →
      C.PRECALC_MAX < C.MOD ∧ calculate_factorials C fuel = .ok tb)
    (ha : a < 4294967296) (hb0 : 0 < b) (hb : b < C.MOD) (hfuel : 46340 ≤ fuel) :
    ∃ binv, binv < C.MOD ∧ binv * b % C.MOD = 1 ∧
      div_assign C tb fuel a b = .ok (a * binv % C.MOD) := by
  have h1 := hmod.1
  have h2 := hmod.2
  have hpos : 0 < C.MOD := by omega
  unfold div_assign
  by_cases hc : C.NEED_PRECALC = true ∧ b ≤ C.PRECALC_MAX
  · rw [if_pos hc]
    obtain ⟨hmax, htb'⟩ := htb hc.1
    obtain ⟨tb', htb'', hfact, hifact⟩ := calculate_factorials_spec C fuel hmod hp hmax hfuel
    rw [htb'] at htb''
    injection htb'' with htb''
    subst htb''
    obtain ⟨v, hv, hvlt, hvm⟩ := hifact b hc.2
    have hidx : toU32 ((b : Int) - 1) = b - 1 := by
      have := @toU32_eq ((b : Int) - 1) (by omega) (by omega)
      omega
    have hf := hfact (b - 1) (by omega)
    rw [hidx]
    simp only [hv, hf]
    have hflt := Nat.mod_lt (b - 1).factorial hpos
    have hprod : v * ((b - 1).factorial % C.MOD) < 2 ^ 64 := by
      calc v * ((b - 1).factorial % C.MOD) < 4294967296 * 4294967296 :=
            Nat.mul_lt_mul'' (by omega) (by omega)
        _ = 2 ^ 64 := by norm_num
    rw [Nat.mod_eq_of_lt hprod, normalize_u64 _ _ hmod (by simpa using hprod)]
    refine ⟨v * ((b - 1).factorial % C.MOD) % C.MOD, Nat.mod_lt _ hpos, ?_, ?_⟩
    · have e : v * (b - 1).factorial * b = v * b.factorial := by
        obtain ⟨k, rfl⟩ : ∃ k, b = k + 1 := ⟨b - 1, by omega⟩
        rw [Nat.factorial_succ, Nat.add_sub_cancel]; ring
      have g1 : v * ((b - 1).factorial % C.MOD) % C.MOD ≡ v * ((b - 1).factorial % C.MOD)
          [MOD C.MOD] := Nat.mod_modEq _ _
      have g2 : (b - 1).factorial % C.MOD ≡ (b - 1).factorial [MOD C.MOD] := Nat.mod_modEq _ _
      have g3 := (g1.mul_right b).trans ((g2.mul_left v).mul_right b)
      rw [e] at g3
      unfold Nat.ModEq at g3
      rw [g3, hvm]
    · rw [mul_assign_eq _ _ _ ha (by have := Nat.mod_lt (v * ((b - 1).factorial % C.MOD)) hpos; omega)]
  · rw [if_neg hc]
    rw [inverse_prime_spec C.MOD fuel b hmod hp (by omega) hfuel]
    simp only
    have hlt := Nat.mod_lt ((b % C.MOD) ^ (C.MOD - 2)) hpos
    rw [normalize_u32 _ _ hmod (by omega), Nat.mod_mod]
    refine ⟨(b % C.MOD) ^ (C.MOD - 2) % C.MOD, hlt, ?_, ?_⟩
    · have hnd : ¬ C.MOD ∣ b := by
        intro h
        have := Nat.le_of_dvd hb0 h
        omega
      rw [Nat.mod_eq_of_lt hb]
      exact fermat_inverse C.MOD b hp hnd
    · rw [mul_assign_eq _ _ _ ha (by omega)]

/-- C4: in the shipped policy `Mint` (modulus 1000000007, tables up to 200000),
`initialize` builds the tables and, for every residue `a` and every nonzero residue `b`,
`a / b` returns a residue `q` with `q * b = a`, on the table path (`b ≤ 200000`) as on
the path of `inverse` (`b > 200000`). -/
theorem C4_division_inverts_multiplication (fuel a b : Nat) (hfuel : 46340 ≤ fuel)
    (ha : a < Mint.MOD) (hb0 : 0 < b) (hb : b < Mint.MOD) :
    ∃ tb q, initialize_policy Mint fuel = .accepted (.ok tb) ∧
      div Mint tb fuel a b = .ok q ∧ mul Mint.MOD q b = a := by
  have hmod : validMod Mint.MOD := by decide
  have hp := prime_Mint_MOD
  have hmax : Mint.PRECALC_MAX < Mint.MOD := by decide
  obtain ⟨tb, htb, _, _⟩ := calculate_factorials_spec Mint fuel hmod hp hmax hfuel
  obtain ⟨binv, hblt, hbinv, hdiv⟩ := div_assign_prime_spec Mint tb fuel a b hmod hp
    (fun _ => ⟨hmax, htb⟩) (by have : Mint.MOD = 1000000007 := rfl; omega) hb0 hb hfuel
  refine ⟨tb, a * binv % Mint.MOD, ?_, hdiv, ?_⟩
  · rw [initialize_policy_prime Mint fuel hmod hp rfl hfuel, htb]
  · have hM : Mint.MOD = 1000000007 := rfl
    unfold mul
    rw [mul_assign_eq _ _ _ (by have := Nat.mod_lt (a * binv) (show 0 < Mint.MOD by omega); omega)
      (by omega), Nat.mod_mul_mod, Nat.mul_assoc, Nat.mul_mod, hbinv, Nat.mul_one, Nat.mod_mod,
      Nat.mod_eq_of_lt ha]

theorem inverse_loop_step_bounds (a m M : Nat) (u v : Int) (ha : 0 < a) (hm : 0 < m)
    (hinv : (u ≤ 0 ∧ 0 ≤ v ∧ v * m - u * a = M) ∨ (0 ≤ u ∧ v ≤ 0 ∧ u * a - v * m = M)) :
    -(M : Int) ≤ ((m / a : Nat) : Int) * v ∧ ((m / a : Nat) : Int) * v ≤ M ∧
    -(M : Int) ≤ u - ((m / a : Nat) : Int) * v ∧ u - ((m / a : Nat) : Int) * v ≤ M ∧
    -(M : Int) ≤ v ∧ v ≤ M ∧
    ((0 ≤ v ∧ u - ((m / a : Nat) : Int) * v ≤ 0 ∧
        v * ((m % a : Nat) : Int) - (u - ((m / a : Nat) : Int) * v) * a = M) ∨
      (v ≤ 0 ∧ 0 ≤ u - ((m / a : Nat) : Int) * v ∧
        (u - ((m / a : Nat) : Int) * v) * a - v * ((m % a : Nat) : Int) = M)) := by
  have hdm : ((m % a : Nat) : Int) + (a : Int) * ((m / a : Nat) : Int) = m := by
    exact_mod_cast Nat.mod_add_div m a
  have hr0 : (0 : Int) ≤ ((m % a : Nat) : Int) := by positivity
  have ht0 : (0 : Int) ≤ ((m / a : Nat) : Int) := by positivity
  have ha1 : (1 : Int) ≤ a := by exact_mod_cast ha
  have hm1 : (1 : Int) ≤ m := by exact_mod_cast hm
  have hM0 : (0 : Int) ≤ M := by positivity
  generalize ((m % a : Nat) : Int) = r at *
  generalize ((m / a : Nat) : Int) = t at *
  generalize (a : Int) = A at *
  generalize (m : Int) = B at *
  generalize (M : Int) = MM at *
  rcases hinv with ⟨hu, hv, he⟩ | ⟨hu, hv, he⟩
  · have htv : 0 ≤ t * v := mul_nonneg ht0 hv
    have hkey : (t * v - u) * A + v * r = MM := by
      linear_combination he + v * hdm
    have hvr : 0 ≤ v * r := mul_nonneg hv hr0
    have hle : t * v - u ≤ (t * v - u) * A := le_mul_of_one_le_right (by linarith) ha1
    have hvB : v ≤ v * B := le_mul_of_one_le_right hv hm1
    have hua : 0 ≤ -u * A := mul_nonneg (by linarith) (by linarith)
    refine ⟨by linarith, by linarith, by linarith, by linarith, by linarith, by linarith,
      Or.inl ⟨hv, by linarith, by linear_combination he + v * hdm⟩⟩
  · have htv : t * v ≤ 0 := mul_nonpos_of_nonneg_of_nonpos ht0 hv
    have hkey : (u - t * v) * A - v * r = MM := by
      linear_combination he - v * hdm
    have hvr : v * r ≤ 0 := mul_nonpos_of_nonpos_of_nonneg hv hr0
    have hle : u - t * v ≤ (u - t * v) * A := le_mul_of_one_le_right (by linarith) ha1
    have hvB : -v ≤ -v * B := le_mul_of_one_le_right (by linarith) hm1
    have hua : 0 ≤ u * A := mul_nonneg hu (by linarith)
    refine ⟨by linarith, by linarith, by linarith, by linarith, by linarith, by linarith,
      Or.inr ⟨hv, by linarith, by linear_combination he - v * hdm⟩⟩

theorem i32_inRange_iff (x : Int) : i32.inRange x ↔ -2147483648 ≤ x ∧ x < 2147483648 := by
  unfold IntTy.inRange
  simp [i32]

theorem i32_wrap_bounded (x : Int) (M : Nat) (hM : M ≤ 2147483647) (h1 : -(M : Int) ≤ x)
    (h2 : x ≤ M) : i32.wrap x = x ∧ i32.inRange x := by
  rw [i32_inRange_iff]
  exact ⟨i32_wrap_eq (by omega) (by omega), by omega, by omega⟩

theorem inverse_loop_step (a m M : Nat) (u v : Int) (hM : M ≤ 2147483647) (ha : 0 < a)
    (hmM : m ≤ M)
    (b1 : -(M : Int) ≤ ((m / a : Nat) : Int) * v) (b2 : ((m / a : Nat) : Int) * v ≤ M)
    (b3 : -(M : Int) ≤ u - ((m / a : Nat) : Int) * v)
    (b4 : u - ((m / a : Nat) : Int) * v ≤ M) :
    (∀ fuel, inverse_loop (fuel + 1) a m u v
      = inverse_loop fuel ((m % a : Nat) : Int) a v (u - ((m / a : Nat) : Int) * v)) ∧
    (∀ fuel, inverse_loop_overflows (fuel + 1) a m u v
      = inverse_loop_overflows fuel ((m % a : Nat) : Int) a v
          (u - ((m / a : Nat) : Int) * v)) := by
  have ha' : (a : Int) ≠ 0 := by omega
  have hle : m / a ≤ m := Nat.div_le_self m a
  have hmul : ((m / a : Nat) : Int) * a ≤ m := by exact_mod_cast Nat.div_mul_le_self m a
  have hmul0 : (0 : Int) ≤ ((m / a : Nat) : Int) * a := by positivity
  have hmod : ((m % a : Nat) : Int) + (a : Int) * ((m / a : Nat) : Int) = m := by
    exact_mod_cast Nat.mod_add_div m a
  have hr : m % a < a := Nat.mod_lt m ha
  have hr' : m % a ≤ m := Nat.mod_le m a
  have hm1 : (m : Int) - ((m / a : Nat) : Int) * a = ((m % a : Nat) : Int) := by
    linarith
  have hdiv : (m : Int) / (a : Int) = ((m / a : Nat) : Int) := by push_cast; rfl
  have w0 := i32_wrap_bounded ((m / a : Nat) : Int) M hM
    (by have : (0 : Int) ≤ ((m / a : Nat) : Int) := by positivity
        linarith)
    (by exact_mod_cast le_trans hle hmM)
  have w1 := i32_wrap_bounded (((m / a : Nat) : Int) * a) M hM (by linarith)
    (by have : (m : Int) ≤ M := by exact_mod_cast hmM
        linarith)
  have w2 := i32_wrap_bounded ((m % a : Nat) : Int) M hM
    (by have : (0 : Int) ≤ ((m % a : Nat) : Int) := by positivity
        linarith)
    (by exact_mod_cast le_trans hr' hmM)
  have w3 := i32_wrap_bounded _ M hM b1 b2
  have w4 := i32_wrap_bounded _ M hM b3 b4
  have ht : i32.wrap (Int.tdiv (m : Int) (a : Int)) = ((m / a : Nat) : Int) := by
    rw [Int.tdiv_eq_ediv (by positivity) (by positivity), hdiv]
    exact w0.1
  constructor
  · intro fuel
    rw [inverse_loop, if_neg ha']
    simp only [ht, w1.1, hm1, w2.1, w3.1, w4.1]
  · intro fuel
    rw [inverse_loop_overflows, if_neg ha']
    simp only [ht, w1.1, hm1, w2.1, w3.1, w4.1]
    rw [decide_eq_true w1.2, decide_eq_true w2.2, decide_eq_true w3.2, decide_eq_true w4.2]
    rfl

theorem inverse_loop_spec (N M : Nat) (hM : M ≤ 2147483647) :
    ∀ (a fuel m : Nat) (u v : Int), a < fuel → 0 < m → m ≤ M → a ≤ M →
      Nat.gcd a m = Nat.gcd N M →
      u * N ≡ m [ZMOD M] → v * N ≡ a [ZMOD M] →
      ((u ≤ 0 ∧ 0 ≤ v ∧ v * m - u * a = M) ∨ (0 ≤ u ∧ v ≤ 0 ∧ u * a - v * m = M)) →
      -(M : Int) ≤ u → u ≤ M →
      (∃ u1, inverse_loop fuel a m u v = .ok ((Nat.gcd N M : Int), u1) ∧
        u1 * N ≡ (Nat.gcd N M : Int) [ZMOD M] ∧ -(M : Int) ≤ u1 ∧ u1 ≤ M) ∧
      ∀ f, inverse_loop_overflows f a m u v = false := by
  intro a
  induction a using Nat.strong_induction_on with
  | _ a ih =>
    intro fuel m u v hfuel hm hmM haM hgcd hu hv hinv hu1 hu2
    obtain ⟨fuel, rfl⟩ : ∃ k, fuel = k + 1 := ⟨fuel - 1, by clear ih hinv; omega⟩
    by_cases ha : a = 0
    · subst ha
      rw [Nat.gcd_zero_left] at hgcd
      constructor
      · refine ⟨u, ?_, ?_, hu1, hu2⟩
        · rw [inverse_loop]
          simp only [Nat.cast_zero, if_true]
          rw [hgcd]
        · rw [← hgcd]
          exact hu
      · intro f
        cases f <;> simp [inverse_loop_overflows]
    · have hapos : 0 < a := Nat.pos_of_ne_zero ha
      obtain ⟨b1, b2, b3, b4, b5, b6, b7⟩ := inverse_loop_step_bounds a m M u v hapos hm hinv
      obtain ⟨s1, s2⟩ := inverse_loop_step a m M u v hM hapos hmM b1 b2 b3 b4
      have hr : m % a < a := Nat.mod_lt m hapos
      have hm1 : (m : Int) - ((m / a : Nat) : Int) * a = ((m % a : Nat) : Int) := by
        have : ((m % a : Nat) : Int) + (a : Int) * ((m / a : Nat) : Int) = m := by
          exact_mod_cast Nat.mod_add_div m a
        linarith
      have hrec := ih (m % a) hr fuel a v (u - ((m / a : Nat) : Int) * v)
        (lt_of_lt_of_le hr (Nat.lt_succ_iff.1 hfuel)) hapos haM
        (le_trans (le_of_lt hr) haM)
        (by rw [← hgcd, Nat.gcd_rec a m])
        hv
        (by
          have h1 : (u - ((m / a : Nat) : Int) * v) * N
              = u * N - ((m / a : Nat) : Int) * (v * N) := by ring
          rw [h1, ← hm1]
          exact hu.sub ((Int.ModEq.refl _).mul hv))
        (by
          rcases b7 with ⟨c1, c2, c3⟩ | ⟨c1, c2, c3⟩
          · exact Or.inr ⟨c1, c2, by linarith⟩
          · exact Or.inl ⟨c1, c2, by linarith⟩)
        b5 b6
      constructor
      · rw [s1 fuel]
        exact hrec.1
      · intro f
        cases f with
        | zero => rfl
        | succ f =>
          rw [s2 f]
          exact hrec.2 f

theorem inverse_euclid_spec (mod fuel number : Nat) (hmod : validMod mod)
    (hn : number < mod) (hfuel : number < fuel) :
    (Nat.gcd number mod ≠ 1 → inverse_euclid mod fuel number = .throw .impossibleToInverse) ∧
    (Nat.gcd number mod = 1 → ∃ x, inverse_euclid mod fuel number = .ok x ∧ x < mod ∧
      number * x % mod = 1) ∧
    ∀ f, inverse_loop_overflows f (i32.wrap number) mod 0 1 = false := by
  have h1 := hmod.1
  have h2 := hmod.2
  have hM : mod ≤ 2147483647 := by omega
  have hw : i32.wrap (number : Int) = number := i32_wrap_eq (by omega) (by omega)
  obtain ⟨⟨u1, hloop, hcong, hb1, hb2⟩, hov⟩ :=
    inverse_loop_spec number mod hM number fuel mod 0 1 hfuel (by omega) (le_refl _)
      (le_of_lt hn) rfl
      (by
        rw [zero_mul]
        simp [Int.ModEq])
      (by rw [one_mul])
      (Or.inl ⟨le_refl _, by norm_num, by ring⟩)
      (by omega) (by omega)
  unfold inverse_euclid
  rw [hw, hloop]
  refine ⟨?_, ?_, hov⟩
  · intro hg
    have : ((Nat.gcd number mod : Nat) : Int) ≠ 1 := by exact_mod_cast hg
    simp only [this, ne_eq, not_false_eq_true, if_true]
  · intro hg
    rw [hg] at hcong ⊢
    simp only [Nat.cast_one, ne_eq, not_true_eq_false, if_false]
    have hnorm := normalize_i32 mod u1 hmod (by omega) (by omega)
    have hlt := Int.emod_lt_of_pos u1 (show (0 : Int) < mod by omega)
    refine ⟨_, rfl, by omega, ?_⟩
    have hx : ((normalize mod i32 u1 : Nat) : Int) ≡ u1 [ZMOD mod] := by
      rw [hnorm]
      exact Int.mod_modEq _ _
    have hprod : (number : Int) * (normalize mod i32 u1 : Nat) ≡ 1 [ZMOD mod] := by
      have := (hx.mul_right (number : Int)).trans hcong
      rw [mul_comm] at this
      exact this
    have h1' : (1 : Int) % mod = 1 := Int.emod_eq_of_lt (by omega) (by omega)
    unfold Int.ModEq at hprod
    rw [h1'] at hprod
    have hc : (((number * normalize mod i32 u1 % mod : Nat)) : Int) = 1 := by
      push_cast
      exact hprod
    exact_mod_cast hc

/-- C10: under a composite valid modulus, for every value in `[0, modulus)`, `inverse`
throws "Impossible to inverse number" exactly when `gcd(value, modulus) ≠ 1`, and
otherwise returns `x < modulus` with `value * x ≡ 1`; no `int32_t` intermediate of the
extended Euclid loop overflows, whatever the number of iterations. -/
theorem C10_inverse_composite (mod fuel value : Nat) (hmod : validMod mod)
    (hcomp : ¬ Nat.Prime mod) (hv : value < mod) (hfuel : 46340 ≤ fuel)
    (hfuel2 : value < fuel) :
    (inverse mod fuel value = .throw .impossibleToInverse ↔ Nat.gcd value mod ≠ 1) ∧
    (Nat.gcd value mod = 1 → ∃ x, inverse mod fuel value = .ok x ∧ x < mod ∧
      value * x % mod = 1) ∧
    ∀ f, inverse_loop_overflows f (i32.wrap value) mod 0 1 = false := by
  rw [inverse_composite_eq mod fuel value hmod hcomp hfuel]
  obtain ⟨e1, e2, e3⟩ := inverse_euclid_spec mod fuel value hmod hv hfuel2
  refine ⟨⟨fun h => ?_, e1⟩, e2, e3⟩
  intro hg
  obtain ⟨x, hx, _⟩ := e2 hg
  rw [hx] at h
  cases h

/-- Witness of C10 at the composite modulus 10: the value 3 (coprime, inverse 7) and
the value 4 (not coprime, the call throws). -/
theorem C10_inverse_composite_witness :
    validMod 10 ∧ ¬ Nat.Prime 10 ∧
    (inverse 10 46340 4 = .throw .impossibleToInverse ↔ Nat.gcd 4 10 ≠ 1) ∧
    (Nat.gcd 3 10 = 1 → ∃ x, inverse 10 46340 3 = .ok x ∧ x < 10 ∧ 3 * x % 10 = 1) :=
  ⟨by decide, by norm_num,
    (C10_inverse_composite 10 46340 4 (by decide) (by norm_num) (by decide) (by decide)
      (by decide)).1,
    (C10_inverse_composite 10 46340 3 (by decide) (by norm_num) (by decide) (by decide)
      (by decide)).2.1⟩

/-- Witness of C4: one divisor on the table path (3) and one on the path of `inverse`
(300000). -/
theorem C4_division_inverts_multiplication_witness :
    (∃ tb q, initialize_policy Mint 46340 = .accepted (.ok tb) ∧
      div Mint tb 46340 6 3 = .ok q ∧ mul Mint.MOD q 3 = 6) ∧
    (∃ tb q, initialize_policy Mint 46340 = .accepted (.ok tb) ∧
      div Mint tb 46340 6 300000 = .ok q ∧ mul Mint.MOD q 300000 = 6) :=
  ⟨C4_division_inverts_multiplication 46340 6 3 (by decide) (by decide) (by decide) (by decide),
    C4_division_inverts_multiplication 46340 6 300000 (by decide) (by decide) (by decide)
      (by decide)⟩

/-- C6: for the prime modulus 5, `primitive_root()` returns 5, whose powers
`5^0, ..., 5^3` modulo 5 are `1, 0, 0, 0`, not four distinct values: the test
`number != -1` pushes the remaining factor 1 into `primes`, so every candidate coprime
to the modulus is rejected.  For modulus 11 the result is 2. -/
theorem C6_primitive_root_modulus_5 :
    Nat.Prime 5 ∧ initialize_policy ⟨5, false, 0⟩ 100 = .accepted (.ok ⟨[0], [0]⟩) ∧
    primitive_root_factor 100 100 2 4 [] = .ok (1, [2]) ∧
    primitive_root ⟨5, false, 0⟩ ⟨[0], [0]⟩ 100 = .ok 5 ∧
    (List.range 4).map (fun k => 5 ^ k % 5) = [1, 0, 0, 0] ∧
    ¬ ((List.range 4).map (fun k => 5 ^ k % 5)).Nodup ∧
    primitive_root ⟨11, false, 0⟩ ⟨[0], [0]⟩ 100 = .ok 2 := by
  refine ⟨by norm_num, by decide, by decide, by decide, by decide, by decide, by decide⟩

theorem power_loop_negative (mod : Nat) :
    ∀ (fuel res x : Nat) (deg : Int), deg < 0 → power_loop mod fuel res x deg = .timeout := by
  intro fuel
  induction fuel with
  | zero => intro res x deg _; rfl
  | succ n ih =>
    intro res x deg hdeg
    rw [power_loop, if_neg (by omega)]
    exact ih _ _ _ (by omega)

/-- C9: for the most negative exponent of `int32_t` (and of `int64_t`) `power` returns
no value, whatever the policy, the base and the fuel: `deg = -deg` overflows and leaves
`deg` negative, and the arithmetic shift never brings a negative `deg` to 0.  Under
modulus 7 with base 2, which has the inverse 4, the call runs out of fuel. -/
theorem C9_power_most_negative_exponent :
    (∀ (C : Constants) (tb : Tables) (fuel x r : Nat),
      power C tb fuel x i32 (-2147483648) ≠ .ok r ∧
      power C tb fuel x i64 (-9223372036854775808) ≠ .ok r) ∧
    i32.inRange (-2147483648) ∧ i32.wrap (-(-2147483648)) = -2147483648 ∧
    2 * 4 % 7 = 1 ∧
    power ⟨7, false, 0⟩ ⟨[0], [0]⟩ 100 2 i32 (-2147483648) = .timeout ∧
    power ⟨7, false, 0⟩ ⟨[0], [0]⟩ 100 2 i32 (-2147483647) = .ok 4 := by
  refine ⟨?_, by decide, by decide, by decide, by decide!, by decide!⟩
  intro C tb fuel x r
  have h32 : i32.wrap (-(-2147483648)) = -2147483648 := by decide
  have h64 : i64.wrap (-(-9223372036854775808)) = -9223372036854775808 := by decide
  constructor
  · unfold power
    rw [if_pos (by norm_num), h32]
    cases div_assign C tb fuel (normalize C.MOD i32 1) x with
    | ok x1 =>
      simp only
      rw [power_loop_negative _ _ _ _ _ (by norm_num)]
      exact fun h => by cases h
    | throw e => exact fun h => by cases h
    | undefined => exact fun h => by cases h
    | timeout => exact fun h => by cases h
  · unfold power
    rw [if_pos (by norm_num), h64]
    cases div_assign C tb fuel (normalize C.MOD i32 1) x with
    | ok x1 =>
      simp only
      rw [power_loop_negative _ _ _ _ _ (by norm_num)]
      exact fun h => by cases h
    | throw e => exact fun h => by cases h
    | undefined => exact fun h => by cases h
    | timeout => exact fun h => by cases h

/-- C8, counterexample: under modulus 7 (prime, no tables) and `a = 0`, `m = 1`,
`n = -1`: `power(0, 1) = 0` and `power(0, -1) = 0`, so the product is 0, while
`power(0, 1 + (-1)) = 1`. -/
theorem C8_exponent_addition_counterexample :
    validMod 7 ∧ initialize_policy ⟨7, false, 0⟩ 100 = .accepted (.ok ⟨[0], [0]⟩) ∧
    power ⟨7, false, 0⟩ ⟨[0], [0]⟩ 100 0 i32 1 = .ok 0 ∧
    power ⟨7, false, 0⟩ ⟨[0], [0]⟩ 100 0 i32 (-1) = .ok 0 ∧
    power ⟨7, false, 0⟩ ⟨[0], [0]⟩ 100 0 i32 (1 + (-1)) = .ok 1 ∧
    mul 7 0 0 ≠ 1 := by
  decide

theorem inverse_prime_eq (mod fuel number : Nat) (hmod : validMod mod) (hp : Nat.Prime mod)
    (hfuel : 46340 ≤ fuel) : inverse mod fuel number = inverse_fermat mod fuel number := by
  unfold inverse
  rw [module_is_prime_spec mod fuel hmod hfuel]
  simp only [hp, decide_True]

theorem power_prime_eq (C : Constants) (tb : Tables) (fuel x : Nat) (U : IntTy) (deg : Int)
    (hmod : validMod C.MOD) (hp : Nat.Prime C.MOD) (hfuel : 46340 ≤ fuel)
    (hpre : C.NEED_PRECALC = false) :
    power C tb fuel x U deg =
      if deg < 0 then
        match inverse_fermat C.MOD fuel x with
        | .ok inv =>
          power_loop C.MOD fuel (normalize C.MOD i32 1)
            (mul_assign C.MOD (normalize C.MOD i32 1) (normalize C.MOD u32 inv)) (U.wrap (-deg))
        | .throw e => .throw e
        | .undefined => .undefined
        | .timeout => .timeout
      else power_loop C.MOD fuel (normalize C.MOD i32 1) x deg := by
  unfold power
  by_cases hd : deg < 0
  · rw [if_pos hd, if_pos hd]
    unfold div_assign
    rw [if_neg (by simp [hpre]), inverse_prime_eq C.MOD fuel x hmod hp hfuel]
    cases inverse_fermat C.MOD fuel x <;> rfl
  · rw [if_neg hd, if_neg hd]

theorem sqrt_fast_path_eq (C : Constants) (tb : Tables) (fuel : Nat) (T : IntTy)
    (number : Int) (hmod : validMod C.MOD) (hp : Nat.Prime C.MOD) (hfuel : 46340 ≤ fuel)
    (hpre : C.NEED_PRECALC = false) (h0 : ¬ (number = 0 ∨ C.MOD = 2)) (h4 : C.MOD % 4 = 3) :
    sqrt C tb fuel T number =
      (fun (pw : Int → Outcome Nat) =>
        match pw (Int.tdiv (i32.wrap ((C.MOD : Int) - 1)) 2) with
        | .ok e =>
          if e ≠ normalize C.MOD i32 1 then .throw .notQuadraticResidue
          else pw (Int.tdiv (i32.wrap ((C.MOD : Int) + 1)) 4)
        | .throw e => .throw e
        | .undefined => .undefined
        | .timeout => .timeout)
      (fun deg =>
        if deg < 0 then
          match inverse_fermat C.MOD fuel (normalize C.MOD T number) with
          | .ok inv =>
            power_loop C.MOD fuel (normalize C.MOD i32 1)
              (mul_assign C.MOD (normalize C.MOD i32 1) (normalize C.MOD u32 inv))
              (i32.wrap (-deg))
          | .throw e => .throw e
          | .undefined => .undefined
          | .timeout => .timeout
        else power_loop C.MOD fuel (normalize C.MOD i32 1) (normalize C.MOD T number) deg) := by
  unfold sqrt
  rw [if_neg h0, module_is_prime_spec C.MOD fuel hmod hfuel]
  simp only [hp, decide_True, h4, if_true]
  rw [power_prime_eq C tb fuel _ i32 _ hmod hp hfuel hpre,
    power_prime_eq C tb fuel _ i32 _ hmod hp hfuel hpre]

/-- C5: for the prime modulus `2^31 - 1` and the quadratic residue `4 = 2 * 2`, the fast
path of `sqrt` computes `(mod + 1) / 4` in `int32_t`: `mod + 1` wraps to `-2^31`, the
exponent is `-2^29`, and `power` inverts the base first.  The call returns
`1073741824`, whose square is `536870912` (the inverse of 4), not 4.  Under modulus
`1000000007` the exponent is `250000002` and does not wrap. -/
theorem C5_sqrt_modulus_int_max :
    Nat.Prime 2147483647 ∧ validMod 2147483647 ∧ 2 * 2 % 2147483647 = 4 ∧
    initialize_policy ⟨2147483647, false, 0⟩ 46340 = .accepted (.ok ⟨[0], [0]⟩) ∧
    Int.tdiv (i32.wrap ((2147483647 : Int) + 1)) 4 = -536870912 ∧
    sqrt ⟨2147483647, false, 0⟩ ⟨[0], [0]⟩ 46340 i32 4 = .ok 1073741824 ∧
    mul 2147483647 1073741824 1073741824 = 536870912 ∧
    mul 2147483647 536870912 4 = 1 ∧
    Int.tdiv (i32.wrap ((1000000007 : Int) + 1)) 4 = 250000002 := by
  refine ⟨prime_mersenne31, by decide, by decide,
    initialize_policy_prime_no_precalc ⟨2147483647, false, 0⟩ 46340 (by decide)
      prime_mersenne31 rfl (by decide),
    by decide, ?_, by decide, by decide, by decide⟩
  exact (sqrt_fast_path_eq ⟨2147483647, false, 0⟩ ⟨[0], [0]⟩ 46340 i32 4 (by decide)
    prime_mersenne31 (by decide) rfl (by decide) (by decide)).trans (by decide!)

theorem div_assign_coprime_spec (C : Constants) (tb : Tables) (fuel a b : Nat)
    (hinit : initialize_policy C fuel = .accepted (.ok tb))
    (hmax : C.NEED_PRECALC = true → C.PRECALC_MAX < C.MOD)
    (ha : a < 4294967296) (hb : b < C.MOD) (hcop : Nat.Coprime b C.MOD)
    (hfuel : 46340 ≤ fuel) (hfuel2 : b < fuel) :
    ∃ binv, binv < C.MOD ∧ binv * b % C.MOD = 1 ∧
      div_assign C tb fuel a b = .ok (a * binv % C.MOD) := by
  obtain ⟨hmod, hpre⟩ := initialize_policy_spec C fuel tb hinit
  have h1 := hmod.1
  have h2 := hmod.2
  have hb0 : 0 < b := by
    rcases Nat.eq_zero_or_pos b with h | h
    · subst h
      rw [Nat.Coprime, Nat.gcd_zero_left] at hcop
      omega
    · exact h
  by_cases hp : Nat.Prime C.MOD
  · exact div_assign_prime_spec C tb fuel a b hmod hp
      (fun hn => ⟨hmax hn, (hpre hn).2⟩) ha hb0 hb hfuel
  · have hnp : ¬ (C.NEED_PRECALC = true) := by
      intro hn
      have h := (hpre hn).1
      rw [module_is_prime_spec C.MOD fuel hmod hfuel] at h
      injection h with h
      exact hp (of_decide_eq_true h)
    obtain ⟨_, e2, _⟩ := inverse_euclid_spec C.MOD fuel b hmod hb hfuel2
    obtain ⟨x, hx, hxlt, hxm⟩ := e2 hcop
    unfold div_assign
    rw [if_neg (fun h => hnp h.1), inverse_composite_eq C.MOD fuel b hmod hp hfuel, hx]
    simp only
    rw [normalize_u32 _ _ hmod (by omega), Nat.mod_eq_of_lt hxlt,
      mul_assign_eq _ _ _ ha (by omega)]
    exact ⟨x, hxlt, by rw [Nat.mul_comm]; exact hxm, rfl⟩

theorem power_zpow_spec (C : Constants) (tb : Tables) (fuel a : Nat) (U : IntTy) (e : Int)
    (hinit : initialize_policy C fuel = .accepted (.ok tb))
    (hmax : C.NEED_PRECALC = true → C.PRECALC_MAX < C.MOD)
    (ha : a < C.MOD) (hcop : Nat.Coprime a C.MOD)
    (hU : U.signed = true) (hb : 0 < U.bits) (hb2 : U.bits ≤ 64)
    (he1 : -(2 ^ (U.bits - 1) : Int) < e) (he2 : e < 2 ^ (U.bits - 1))
    (hfuel : 46340 ≤ fuel) (hfuel2 : a < fuel) :
    ∃ r, power C tb fuel a U e = .ok r ∧ r < C.MOD ∧
      (r : ZMod C.MOD) = ((ZMod.unitOfCoprime a hcop ^ e : (ZMod C.MOD)ˣ) : ZMod C.MOD) := by
  obtain ⟨hmod, _⟩ := initialize_policy_spec C fuel tb hinit
  have h1 := hmod.1
  have h2 := hmod.2
  have hpos : 0 < C.MOD := by omega
  have hpow : (2 : Int) ^ (U.bits - 1) ≤ 2 ^ 63 :=
    pow_le_pow_right₀ (by norm_num) (by omega)
  by_cases hneg : e < 0
  · obtain ⟨binv, hblt, hbinv, hdiv⟩ :=
      div_assign_coprime_spec C tb fuel 1 a hinit hmax (by omega) ha hcop hfuel hfuel2
    have hw : U.wrap (-e) = -e := by
      apply wrap_eq_of_inRange U hb
      unfold IntTy.inRange
      rw [if_pos hU]
      omega
    have hk : -e = (((-e).toNat : Nat) : Int) := by omega
    unfold power
    rw [if_pos hneg, normalize_i32_one _ hmod, hdiv]
    simp only
    rw [hw, hk, Nat.one_mul, Nat.mod_eq_of_lt hblt,
      power_loop_fuel C.MOD hpos (by omega) fuel 1 binv _ (by omega) (by omega)
        (by have : (-e).toNat < 2 ^ 63 := by
              have : ((-e).toNat : Int) < 2 ^ 63 := by omega
              exact_mod_cast this
            exact this) (by omega), Nat.one_mul]
    refine ⟨_, rfl, Nat.mod_lt _ hpos, ?_⟩
    have hinv : ((ZMod.unitOfCoprime a hcop)⁻¹ : (ZMod C.MOD)ˣ) = ((binv : Nat) : ZMod C.MOD) := by
      apply Units.inv_eq_of_mul_eq_one_left
      rw [ZMod.coe_unitOfCoprime]
      have : ((binv * a % C.MOD : Nat) : ZMod C.MOD) = ((1 : Nat) : ZMod C.MOD) := by
        rw [hbinv]
      rw [ZMod.natCast_mod] at this
      push_cast at this
      exact this
    have he : e = -(((-e).toNat : Nat) : Int) := by omega
    rw [ZMod.natCast_mod, Nat.cast_pow, ← hinv]
    conv_rhs => rw [he, zpow_neg, zpow_natCast, ← inv_pow]
    rw [Units.val_pow_eq_pow_val]
  · have hk : e = ((e.toNat : Nat) : Int) := by omega
    unfold power
    rw [if_neg hneg, normalize_i32_one _ hmod, hk,
      power_loop_fuel C.MOD hpos (by omega) fuel 1 a _ (by omega) (by omega)
        (by have : e.toNat < 2 ^ 63 := by
              have : (e.toNat : Int) < 2 ^ 63 := by omega
              exact_mod_cast this
            exact this) (by omega), Nat.one_mul]
    refine ⟨_, rfl, Nat.mod_lt _ hpos, ?_⟩
    rw [ZMod.natCast_mod, Nat.cast_pow, zpow_natCast, Units.val_pow_eq_pow_val,
      ZMod.coe_unitOfCoprime]

/-- C8, amended: under a policy accepted by `initialize` (with `PRECALC_MAX < MOD` when
the tables are built), for every residue `a` and all exponents `m`, `n` of a signed
type of at most 64 bits such that `m`, `n` and `m + n` are values of the type other
than its most negative one: if `m` and `n` are non-negative, or if `a` is coprime to
the modulus, then `power(a, m) * power(a, n) = power(a, m + n)`, all three calls
returning. -/
theorem C8_exponent_addition_amended (C : Constants) (tb : Tables) (fuel a : Nat)
    (U : IntTy) (m n : Int)
    (hinit : initialize_policy C fuel = .accepted (.ok tb))
    (hmax : C.NEED_PRECALC = true → C.PRECALC_MAX < C.MOD)
    (ha : a < C.MOD) (hU : U.signed = true) (hb : 0 < U.bits) (hb2 : U.bits ≤ 64)
    (hm1 : -(2 ^ (U.bits - 1) : Int) < m) (hm2 : m < 2 ^ (U.bits - 1))
    (hn1 : -(2 ^ (U.bits - 1) : Int) < n) (hn2 : n < 2 ^ (U.bits - 1))
    (hs1 : -(2 ^ (U.bits - 1) : Int) < m + n) (hs2 : m + n < 2 ^ (U.bits - 1))
    (hcase : (0 ≤ m ∧ 0 ≤ n) ∨ Nat.Coprime a C.MOD)
    (hfuel : 46340 ≤ fuel) (hfuel2 : a < fuel) :
    ∃ r1 r2 r3, power C tb fuel a U m = .ok r1 ∧ power C tb fuel a U n = .ok r2 ∧
      power C tb fuel a U (m + n) = .ok r3 ∧ mul C.MOD r1 r2 = r3 := by
  obtain ⟨hmod, _⟩ := initialize_policy_spec C fuel tb hinit
  have h1 := hmod.1
  have h2 := hmod.2
  have hpos : 0 < C.MOD := by omega
  have hpow : (2 : Int) ^ (U.bits - 1) ≤ 2 ^ 63 :=
    pow_le_pow_right₀ (by norm_num) (by omega)
  have hlt : ∀ x, x % C.MOD < 4294967296 := fun x => by
    have := Nat.mod_lt x hpos; omega
  rcases hcase with ⟨hm0, hn0⟩ | hcop
  · have hkm : m = ((m.toNat : Nat) : Int) := by omega
    have hkn : n = ((n.toNat : Nat) : Int) := by omega
    have hks : m + n = (((m.toNat + n.toNat : Nat)) : Int) := by omega
    have b1 : m.toNat < 2 ^ 63 := by
      have : (m.toNat : Int) < 2 ^ 63 := by omega
      exact_mod_cast this
    have b2 : n.toNat < 2 ^ 63 := by
      have : (n.toNat : Int) < 2 ^ 63 := by omega
      exact_mod_cast this
    have b3 : m.toNat + n.toNat < 2 ^ 63 := by
      have : ((m.toNat + n.toNat : Nat) : Int) < 2 ^ 63 := by omega
      exact_mod_cast this
    refine ⟨a ^ m.toNat % C.MOD, a ^ n.toNat % C.MOD, a ^ (m.toNat + n.toNat) % C.MOD,
      ?_, ?_, ?_, ?_⟩
    · rw [hkm]
      exact power_nonneg C tb hmod fuel a U _ (by omega) (by simpa using b1) (by omega)
    · rw [hkn]
      exact power_nonneg C tb hmod fuel a U _ (by omega) (by simpa using b2) (by omega)
    · rw [hks]
      exact power_nonneg C tb hmod fuel a U _ (by omega) b3 (by omega)
    · unfold mul
      rw [mul_assign_eq _ _ _ (hlt _) (hlt _), ← Nat.mul_mod, pow_add]
  · obtain ⟨r1, e1, l1, c1⟩ := power_zpow_spec C tb fuel a U m hinit hmax ha hcop hU hb hb2
      hm1 hm2 hfuel hfuel2
    obtain ⟨r2, e2, l2, c2⟩ := power_zpow_spec C tb fuel a U n hinit hmax ha hcop hU hb hb2
      hn1 hn2 hfuel hfuel2
    obtain ⟨r3, e3, l3, c3⟩ := power_zpow_spec C tb fuel a U (m + n) hinit hmax ha hcop hU hb
      hb2 hs1 hs2 hfuel hfuel2
    refine ⟨r1, r2, r3, e1, e2, e3, ?_⟩
    unfold mul
    rw [mul_assign_eq _ _ _ (by omega) (by omega)]
    have hc : ((r1 * r2 % C.MOD : Nat) : ZMod C.MOD) = ((r3 : Nat) : ZMod C.MOD) := by
      rw [ZMod.natCast_mod, Nat.cast_mul, c1, c2, c3, zpow_add, Units.val_mul]
    rw [ZMod.natCast_eq_natCast_iff', Nat.mod_mod, Nat.mod_eq_of_lt l3] at hc
    exact hc

/-- Witness of C8 as amended: modulus 7 without tables, `a = 3`, `m = 5`, `n = -3`. -/
theorem C8_exponent_addition_amended_witness :
    initialize_policy ⟨7, false, 0⟩ 46340 = .accepted (.ok ⟨[0], [0]⟩) ∧ Nat.Coprime 3 7 ∧
    ∃ r1 r2 r3, power ⟨7, false, 0⟩ ⟨[0], [0]⟩ 46340 3 i32 5 = .ok r1 ∧
      power ⟨7, false, 0⟩ ⟨[0], [0]⟩ 46340 3 i32 (-3) = .ok r2 ∧
      power ⟨7, false, 0⟩ ⟨[0], [0]⟩ 46340 3 i32 (5 + (-3)) = .ok r3 ∧ mul 7 r1 r2 = r3 :=
  ⟨by decide, by decide,
    C8_exponent_addition_amended ⟨7, false, 0⟩ ⟨[0], [0]⟩ 46340 3 i32 5 (-3) (by decide)
      (by intro h; cases h) (by decide) rfl (by decide) (by decide) (by decide) (by decide)
      (by decide) (by decide) (by decide) (by decide) (Or.inr (by decide)) (by decide)
      (by decide)⟩

theorem inverse_unique (p x y b : Nat) (hx : x < p) (hy : y < p)
    (h1 : x * b % p = 1) (h2 : y * b % p = 1) : x = y := by
  have e1 : x * (y * b) % p = x % p := by
    rw [Nat.mul_mod, h2, Nat.mul_one, Nat.mod_mod]
  have e2 : x * (y * b) % p = y % p := by
    have : x * (y * b) = x * b * y := by ring
    rw [this, Nat.mul_mod, h1, Nat.one_mul, Nat.mod_mod]
  rw [e1, Nat.mod_eq_of_lt hx, Nat.mod_eq_of_lt hy] at e2
  exact e2

theorem prime_of_initialize_policy (C : Constants) (fuel : Nat) (tb : Tables)
    (hinit : initialize_policy C fuel = .accepted (.ok tb)) (hpre : C.NEED_PRECALC = true)
    (hfuel : 46340 ≤ fuel) : Nat.Prime C.MOD := by
  obtain ⟨hmod, h⟩ := initialize_policy_spec C fuel tb hinit
  have h1 := (h hpre).1
  rw [module_is_prime_spec C.MOD fuel hmod hfuel] at h1
  injection h1 with h1
  exact of_decide_eq_true h1

/-- C11, amended: under a prime valid modulus, for every nonzero value in
`(0, modulus)`, the Fermat branch `power(value, mod - 2)` and the extended Euclid branch
of `inverse` return the same residue `x`, and `value * x = 1` modulo the modulus. -/
theorem C11_inverse_branches_amended (mod fuel value : Nat) (hmod : validMod mod)
    (hp : Nat.Prime mod) (hv0 : 0 < value) (hv : value < mod) (hfuel : 64 ≤ fuel)
    (hfuel2 : value < fuel) :
    inverse_fermat mod fuel value = inverse_euclid mod fuel value ∧
    ∃ x, inverse_fermat mod fuel value = .ok x ∧ x < mod ∧ value * x % mod = 1 := by
  have h1 := hmod.1
  have hnd : ¬ mod ∣ value := fun h => by
    have := Nat.le_of_dvd hv0 h
    omega
  have hcop : Nat.gcd value mod = 1 :=
    Nat.Coprime.symm ((Nat.Prime.coprime_iff_not_dvd hp).2 hnd)
  obtain ⟨_, e2, _⟩ := inverse_euclid_spec mod fuel value hmod hv hfuel2
  obtain ⟨x, hx, hxlt, hxm⟩ := e2 hcop
  have hf := inverse_fermat_spec mod fuel value hmod (by have := hmod.2; omega) hfuel
  rw [Nat.mod_eq_of_lt hv] at hf
  have hfm := fermat_inverse mod value hp hnd
  have heq : value ^ (mod - 2) % mod = x :=
    inverse_unique mod _ x value (Nat.mod_lt _ (by omega)) hxlt hfm
      (by rw [Nat.mul_comm]; exact hxm)
  rw [hf, hx, heq]
  exact ⟨rfl, x, rfl, hxlt, hxm⟩

/-- Witness of C11 as amended: modulus 7, value 3, inverse 5. -/
theorem C11_inverse_branches_amended_witness :
    validMod 7 ∧ Nat.Prime 7 ∧
    inverse_fermat 7 64 3 = inverse_euclid 7 64 3 ∧
    ∃ x, inverse_fermat 7 64 3 = .ok x ∧ x < 7 ∧ 3 * x % 7 = 1 :=
  ⟨by decide, by norm_num,
    C11_inverse_branches_amended 7 64 3 (by decide) (by norm_num) (by decide) (by decide)
      (by decide) (by decide)⟩

/-- C11, counterexample: under the prime modulus 7 the two branches of `inverse` differ
at the value 0: the Fermat branch, the one `inverse` takes, returns `0 ^ 5 = 0`, which is
no inverse, while the extended Euclid branch throws "Impossible to inverse number". -/
theorem C11_inverse_branches_counterexample :
    validMod 7 ∧ Nat.Prime 7 ∧ inverse 7 100 0 = .ok 0 ∧ inverse_fermat 7 100 0 = .ok 0 ∧
    inverse_euclid 7 100 0 = .throw .impossibleToInverse ∧ mul 7 0 0 ≠ 1 := by
  refine ⟨by decide, by norm_num, by decide, by decide, by decide, by decide⟩

/-- C12, counterexample: under modulus 7 with `PRECALC_MAX = 10` the policy is accepted,
`fact[7]` is 0 and so is every entry of `ifact`; dividing 1 by 3 on the table path gives
0, while `inverse(3) = 5` gives 5. -/
theorem C12_fast_path_counterexample :
    initialize_policy ⟨7, true, 10⟩ 100 = .accepted (.ok
      ⟨[1, 1, 2, 6, 3, 1, 6, 0, 0, 0, 0], [0, 0, 0, 0, 0, 0, 0, 0, 0, 0, 0]⟩) ∧
    div_assign ⟨7, true, 10⟩ ⟨[1, 1, 2, 6, 3, 1, 6, 0, 0, 0, 0],
      [0, 0, 0, 0, 0, 0, 0, 0, 0, 0, 0]⟩ 100 1 3 = .ok 0 ∧
    div_assign_inverse 7 100 1 3 = .ok 5 := by
  refine ⟨by decide, by decide, by decide⟩

/-- C12, amended: under a policy with precalculation accepted by `initialize` and
`PRECALC_MAX < MOD`, for every residue `a` and every nonzero divisor `b ≤ PRECALC_MAX`,
`a /= b` through the tables returns the same residue as `a *= inverse(b)`. -/
theorem C12_fast_path_amended (C : Constants) (tb : Tables) (fuel a b : Nat)
    (hinit : initialize_policy C fuel = .accepted (.ok tb)) (hpre : C.NEED_PRECALC = true)
    (hmax : C.PRECALC_MAX < C.MOD) (ha : a < C.MOD) (hb0 : 0 < b) (hb : b ≤ C.PRECALC_MAX)
    (hfuel : 46340 ≤ fuel) :
    ∃ q, div_assign C tb fuel a b = .ok q ∧ div_assign_inverse C.MOD fuel a b = .ok q ∧
      q < C.MOD ∧ mul C.MOD q b = a := by
  obtain ⟨hmod, htb⟩ := initialize_policy_spec C fuel tb hinit
  have hp := prime_of_initialize_policy C fuel tb hinit hpre hfuel
  have h1 := hmod.1
  have h2 := hmod.2
  have hpos : 0 < C.MOD := by omega
  obtain ⟨binv, hblt, hbinv, hdiv⟩ := div_assign_prime_spec C tb fuel a b hmod hp
    (fun hn => ⟨hmax, (htb hn).2⟩) (by omega) hb0 (by omega) hfuel
  have hnd : ¬ C.MOD ∣ b := fun h => by
    have := Nat.le_of_dvd hb0 h
    omega
  have hfm := fermat_inverse C.MOD b hp hnd
  have heq : b ^ (C.MOD - 2) % C.MOD = binv :=
    inverse_unique C.MOD _ binv b (Nat.mod_lt _ hpos) hblt hfm hbinv
  refine ⟨a * binv % C.MOD, hdiv, ?_, Nat.mod_lt _ hpos, ?_⟩
  · unfold div_assign_inverse
    rw [inverse_prime_spec C.MOD fuel b hmod hp (by omega) hfuel,
      Nat.mod_eq_of_lt (show b < C.MOD by omega), heq]
    simp only
    rw [normalize_u32 _ _ hmod (by omega), Nat.mod_eq_of_lt hblt,
      mul_assign_eq _ _ _ (by omega) (by omega)]
  · unfold mul
    rw [mul_assign_eq _ _ _ (by have := Nat.mod_lt (a * binv) hpos; omega) (by omega),
      Nat.mod_mul_mod, Nat.mul_assoc, Nat.mul_mod, hbinv, Nat.mul_one, Nat.mod_mod,
      Nat.mod_eq_of_lt ha]

/-- Witness of C12 as amended: modulus 7 with `PRECALC_MAX = 5`, `a = 1`, `b = 3`. -/
theorem C12_fast_path_amended_witness :
    initialize_policy ⟨7, true, 5⟩ 46340 = .accepted (.ok
      ⟨[1, 1, 2, 6, 3, 1], [1, 1, 4, 6, 5, 1]⟩) ∧
    ∃ q, div_assign ⟨7, true, 5⟩ ⟨[1, 1, 2, 6, 3, 1], [1, 1, 4, 6, 5, 1]⟩ 46340 1 3 = .ok q ∧
      div_assign_inverse 7 46340 1 3 = .ok q ∧ q < 7 ∧ mul 7 q 3 = 1 :=
  ⟨by decide,
    C12_fast_path_amended ⟨7, true, 5⟩ ⟨[1, 1, 2, 6, 3, 1], [1, 1, 4, 6, 5, 1]⟩ 46340 1 3
      (by decide) rfl (by decide) (by decide) (by decide) (by decide) (by decide)⟩

/-- C13, counterexample: under the prime modulus 5 with `PRECALC_MAX = 5` the policy is
accepted, `fact[5] = 5! mod 5 = 0` has no inverse, `inverse` returns 0 for it and every
entry of `ifact` is 0, so that `fact[0] * ifact[0] = 0`. -/
theorem C13_tables_counterexample :
    validMod 5 ∧ Nat.Prime 5 ∧
    initialize_policy ⟨5, true, 5⟩ 100 = .accepted (.ok
      ⟨[1, 1, 2, 1, 4, 0], [0, 0, 0, 0, 0, 0]⟩) ∧
    calculate_factorials ⟨5, true, 5⟩ 100 = .ok ⟨[1, 1, 2, 1, 4, 0], [0, 0, 0, 0, 0, 0]⟩ ∧
    mul 5 1 0 ≠ 1 := by
  refine ⟨by decide, by norm_num, by decide, by decide, by decide⟩

/-- C13, amended: for every valid policy with a prime modulus and `PRECALC_MAX < MOD`,
`calculate_factorials` returns tables of `PRECALC_MAX + 1` entries such that, for every
`i ≤ PRECALC_MAX`, `fact[i] = i! mod MOD` and `ifact[i]` is a residue with
`fact[i] * ifact[i] = 1`; `inverse` is called once, on `fact[PRECALC_MAX]`. -/
theorem C13_tables_amended (C : Constants) (fuel i : Nat) (hmod : validMod C.MOD)
    (hp : Nat.Prime C.MOD) (hmax : C.PRECALC_MAX < C.MOD) (hi : i ≤ C.PRECALC_MAX)
    (hfuel : 46340 ≤ fuel) :
    ∃ tb v, calculate_factorials C fuel = .ok tb ∧
      tb.fact.length = C.PRECALC_MAX + 1 ∧ tb.ifact.length = C.PRECALC_MAX + 1 ∧
      tb.fact[i]? = some (i.factorial % C.MOD) ∧ tb.ifact[i]? = some v ∧ v < C.MOD ∧
      mul C.MOD (i.factorial % C.MOD) v = 1 ∧
      (∃ inv, inverse C.MOD fuel (C.PRECALC_MAX.factorial % C.MOD) = .ok inv ∧
        tb.ifact = calculate_ifact C inv) := by
  have h1 := hmod.1
  have h2 := hmod.2
  have hpos : 0 < C.MOD := by omega
  obtain ⟨tb, htb, hfact, hifact⟩ := calculate_factorials_spec C fuel hmod hp hmax hfuel
  obtain ⟨v, hv, hvlt, hvm⟩ := hifact i hi
  obtain ⟨hlen, hfact'⟩ := calculate_fact_spec C hmod (by omega)
  have hlast : (calculate_fact C).getD C.PRECALC_MAX 0 = C.PRECALC_MAX.factorial % C.MOD := by
    rw [List.getD_eq_getElem?_getD, hfact' _ (le_refl _)]
    rfl
  have hinv := inverse_prime_spec C.MOD fuel (C.PRECALC_MAX.factorial % C.MOD) hmod hp
    (by have := Nat.mod_lt C.PRECALC_MAX.factorial hpos; omega) hfuel
  have htb2 : tb = ⟨calculate_fact C, calculate_ifact C
      ((C.PRECALC_MAX.factorial % C.MOD % C.MOD) ^ (C.MOD - 2) % C.MOD)⟩ := by
    unfold calculate_factorials at htb
    simp only [hlast, hinv] at htb
    injection htb with htb
    exact htb.symm
  have hilen := (calculate_ifact_spec C
    ((C.PRECALC_MAX.factorial % C.MOD % C.MOD) ^ (C.MOD - 2) % C.MOD) hmod (by omega)
    (Nat.mod_lt _ hpos)).1
  refine ⟨tb, v, htb, ?_, ?_, hfact i hi, hv, hvlt, ?_, _, hinv, ?_⟩
  · rw [htb2]; exact hlen
  · rw [htb2]; exact hilen
  · unfold mul
    rw [mul_assign_eq _ _ _ (by have := Nat.mod_lt i.factorial hpos; omega) (by omega),
      Nat.mod_mul_mod, Nat.mul_comm]
    exact hvm
  · rw [htb2]

/-- Witness of C13 as amended: modulus 7 with `PRECALC_MAX = 5`, at `i = 4`. -/
theorem C13_tables_amended_witness :
    validMod 7 ∧ Nat.Prime 7 ∧
    ∃ tb v, calculate_factorials ⟨7, true, 5⟩ 46340 = .ok tb ∧
      tb.fact.length = 5 + 1 ∧ tb.ifact.length = 5 + 1 ∧
      tb.fact[4]? = some (Nat.factorial 4 % 7) ∧ tb.ifact[4]? = some v ∧ v < 7 ∧
      mul 7 (Nat.factorial 4 % 7) v = 1 ∧
      (∃ inv, inverse 7 46340 (Nat.factorial 5 % 7) = .ok inv ∧
        tb.ifact = calculate_ifact ⟨7, true, 5⟩ inv) :=
  ⟨by decide, by norm_num,
    C13_tables_amended ⟨7, true, 5⟩ 46340 4 (by decide) (by norm_num) (by decide) (by decide)
      (by decide)⟩

theorem module_is_prime_loop_no_wrap (mod : Nat) (h31 : mod < 2147483648) :
    ∀ (fuel i : Nat), i ≤ 46341 → module_is_prime_loop_wraps mod fuel i = false := by
  intro fuel
  induction fuel with
  | zero => intro i _; rfl
  | succ n ih =>
    intro i hi
    rw [module_is_prime_loop_wraps]
    have hsq : i * i < 2 ^ 32 := by
      calc i * i ≤ 46341 * 46341 := Nat.mul_le_mul hi hi
        _ < 2 ^ 32 := by norm_num
    have hd1 : decide (2 ^ 32 ≤ i * i) = false := decide_eq_false (by omega)
    rw [hd1, Bool.false_or, Nat.mod_eq_of_lt hsq]
    by_cases hle : i * i ≤ mod
    · rw [if_pos hle]
      have hi' : i ≤ 46340 := by
        by_contra hc
        have h41 : i = 46341 := by omega
        subst h41
        omega
      by_cases hdiv : mod % i = 0
      · rw [if_pos hdiv]
      · rw [if_neg hdiv]
        have hd2 : decide (2 ^ 32 ≤ i + 1) = false := decide_eq_false (by omega)
        have hw : (i + 1) % 2 ^ 32 = i + 1 := Nat.mod_eq_of_lt (by omega)
        rw [hd2, Bool.false_or, hw]
        exact ih (i + 1) (by omega)
    · rw [if_neg hle]

/-- C17: for every modulus in `[2, 2^31 - 1]`, `module_is_prime()` returns, and returns
true exactly when the modulus is prime; neither `i * i` nor `++i` wraps in its loop.
So `initialize()` accepts a policy with `NEED_PRECALC` exactly when the modulus is in
`[2, 2^31 - 1]` and prime. -/
theorem C17_policy_validation (C : Constants) (fuel : Nat) (hpre : C.NEED_PRECALC = true)
    (hfuel : 46340 ≤ fuel) :
    (validMod C.MOD →
      module_is_prime C.MOD fuel = .ok (decide (Nat.Prime C.MOD)) ∧
      (module_is_prime C.MOD fuel = .ok true ↔ Nat.Prime C.MOD) ∧
      ∀ f, module_is_prime_loop_wraps C.MOD f 2 = false) ∧
    ((∃ o, initialize_policy C fuel = .accepted o) ↔ validMod C.MOD ∧ Nat.Prime C.MOD) := by
  constructor
  · intro hmod
    have h := module_is_prime_spec C.MOD fuel hmod hfuel
    refine ⟨h, ?_, fun f => module_is_prime_loop_no_wrap C.MOD (by have := hmod.2; omega) f 2
      (by norm_num)⟩
    rw [h]
    constructor
    · intro h1
      injection h1 with h1
      exact of_decide_eq_true h1
    · intro hp
      rw [decide_eq_true hp]
  · unfold initialize_policy
    by_cases hmod : validMod C.MOD
    · have hv : ¬ ¬ (1 < C.MOD ∧ C.MOD ≤ 2 ^ 31 - 1) := not_not.2 hmod
      rw [if_neg hv, module_is_prime_spec C.MOD fuel hmod hfuel]
      by_cases hp : Nat.Prime C.MOD
      · simp only [hp, decide_True]
        rw [if_neg (by simp [hpre])]
        exact ⟨fun _ => ⟨hmod, trivial⟩, fun _ => ⟨_, rfl⟩⟩
      · simp only [hp, decide_False]
        constructor
        · rintro ⟨o, ho⟩
          cases ho
        · rintro ⟨_, h⟩
          exact absurd h (by simp)
    · have hv : ¬ (1 < C.MOD ∧ C.MOD ≤ 2 ^ 31 - 1) := hmod
      rw [if_pos hv]
      constructor
      · rintro ⟨o, ho⟩
        cases ho
      · rintro ⟨h, _⟩
        exact absurd h hmod

/-- Witness of C17: the shipped policy `Mint`. -/
theorem C17_policy_validation_witness :
    Mint.NEED_PRECALC = true ∧
    (validMod Mint.MOD →
      module_is_prime Mint.MOD 46340 = .ok (decide (Nat.Prime Mint.MOD)) ∧
      (module_is_prime Mint.MOD 46340 = .ok true ↔ Nat.Prime Mint.MOD) ∧
      ∀ f, module_is_prime_loop_wraps Mint.MOD f 2 = false) ∧
    ((∃ o, initialize_policy Mint 46340 = .accepted o) ↔
      validMod Mint.MOD ∧ Nat.Prime Mint.MOD) :=
  ⟨rfl, C17_policy_validation Mint 46340 rfl (by decide)⟩

/-- C18: under a valid modulus, for every residue `v`, prefix `++` stores
`(v + 1) mod modulus` (so `modulus - 1` goes to 0), prefix `--` stores
`(v - 1) mod modulus` (so 0 goes to `modulus - 1`), and each undoes the other. -/
theorem C18_prefix_increment_decrement (mod v : Nat) (hmod : validMod mod) (hv : v < mod) :
    pre_increment mod v = (v + 1) % mod ∧ pre_increment mod (mod - 1) = 0 ∧
    (pre_decrement mod v : Int) = ((v : Int) - 1) % mod ∧ pre_decrement mod 0 = mod - 1 ∧
    pre_decrement mod (pre_increment mod v) = v ∧
    pre_increment mod (pre_decrement mod v) = v := by
  have h1 := hmod.1
  have h2 := hmod.2
  have hpos : 0 < mod := by omega
  have hinc : ∀ x, x < mod → pre_increment mod x = if x + 1 = mod then 0 else x + 1 := by
    intro x hx
    rw [pre_increment_eq mod x hmod hx]
    split
    · rename_i h; rw [h, Nat.mod_self]
    · exact Nat.mod_eq_of_lt (by omega)
  have hdec : ∀ x, x < mod → pre_decrement mod x = if x = 0 then mod - 1 else x - 1 := by
    intro x hx
    rw [pre_decrement_eq mod x hmod hx]
    split
    · rename_i h; subst h
      rw [Nat.zero_add]
      exact Nat.mod_eq_of_lt (by omega)
    · have e : x + (mod - 1) = (x - 1) + mod := by omega
      rw [e, Nat.add_mod_right]
      exact Nat.mod_eq_of_lt (by omega)
  refine ⟨pre_increment_eq mod v hmod hv, ?_, ?_, ?_, ?_, ?_⟩
  · rw [hinc (mod - 1) (by omega), if_pos (by omega)]
  · rw [hdec v hv]
    split
    · rename_i h; subst h
      have : ((0 : Nat) : Int) - 1 = (mod : Int) - 1 + mod * (-1) := by ring
      rw [this, Int.add_mul_emod_self_left, Int.emod_eq_of_lt (by omega) (by omega)]
      omega
    · rw [Int.emod_eq_of_lt (by omega) (by omega)]
      omega
  · rw [hdec 0 hpos, if_pos rfl]
  · rw [hinc v hv]
    split
    · rw [hdec 0 hpos, if_pos rfl]; omega
    · rw [hdec (v + 1) (by omega), if_neg (by omega)]; omega
  · rw [hdec v hv]
    split
    · rename_i h; subst h
      rw [hinc (mod - 1) (by omega), if_pos (by omega)]
    · rw [hinc (v - 1) (by omega), if_neg (by omega)]; omega

/-- Witness of C18 at modulus 7, residue 6. -/
theorem C18_prefix_increment_decrement_witness :
    validMod 7 ∧ pre_increment 7 6 = (6 + 1) % 7 ∧ pre_decrement 7 0 = 7 - 1 ∧
    pre_decrement 7 (pre_increment 7 6) = 6 ∧ pre_increment 7 (pre_decrement 7 6) = 6 :=
  have h := C18_prefix_increment_decrement 7 6 (by decide) (by decide)
  ⟨by decide, h.1, h.2.2.2.1, h.2.2.2.2.1, h.2.2.2.2.2⟩

/-- C20: under a valid modulus, for every residue `v`, a call of postfix `++` returns
`(v + 1) mod modulus` and a call of postfix `--` returns `(v - 1) mod modulus`, the
values the prefix forms store, and the operand still holds `v` after either call. -/
theorem C20_postfix_frame (mod v : Nat) (hmod : validMod mod) (hv : v < mod) :
    post_increment_call mod v = ((v + 1) % mod, v) ∧
    (post_increment_call mod v).1 = pre_increment mod v ∧
    (post_increment_call mod v).2 = v ∧
    ((post_decrement_call mod v).1 : Int) = ((v : Int) - 1) % mod ∧
    (post_decrement_call mod v).1 = pre_decrement mod v ∧
    (post_decrement_call mod v).2 = v := by
  have h1 := hmod.1
  have h2 := hmod.2
  have hd : post_decrement mod v = pre_decrement mod v := by
    rw [post_decrement_eq mod v hmod hv, pre_decrement_eq mod v hmod hv]
  have hi : post_increment mod v = pre_increment mod v := by
    rw [post_increment_eq mod v hmod hv, pre_increment_eq mod v hmod hv]
  refine ⟨?_, hi, rfl, ?_, hd, rfl⟩
  · unfold post_increment_call
    rw [post_increment_eq mod v hmod hv]
  · show ((post_decrement mod v : Nat) : Int) = _
    rw [post_decrement_eq mod v hmod hv]
    by_cases h0 : v = 0
    · subst h0
      have : ((0 : Nat) : Int) - 1 = (mod : Int) - 1 + mod * (-1) := by ring
      rw [this, Int.add_mul_emod_self_left, Int.emod_eq_of_lt (by omega) (by omega),
        Nat.zero_add, Nat.mod_eq_of_lt (by omega)]
      omega
    · have e : v + (mod - 1) = (v - 1) + mod := by omega
      rw [e, Nat.add_mod_right, Nat.mod_eq_of_lt (by omega),
        Int.emod_eq_of_lt (by omega) (by omega)]
      omega

/-- Witness of C20 at modulus 7, residue 6. -/
theorem C20_postfix_frame_witness :
    validMod 7 ∧ post_increment_call 7 6 = ((6 + 1) % 7, 6) ∧
    (post_decrement_call 7 6).1 = pre_decrement 7 6 ∧ (post_decrement_call 7 6).2 = 6 :=
  have h := C20_postfix_frame 7 6 (by decide) (by decide)
  ⟨by decide, h.1, h.2.2.2.2.1, h.2.2.2.2.2⟩

/-- C16: under the odd prime modulus 7, `sqrt(7)` with the plain integer 7 throws
"Number is not a quadratic residue", although 7 is congruent to 0 and `0 * 0` is its
residue: the test `number == 0` is made before normalization, and Euler's criterion then
sees `0 ^ 3 = 0`.  The calls `sqrt(0)` under modulus 7 and `sqrt(5)` under modulus 2
return 0 and 1. -/
theorem C16_sqrt_of_unnormalized_zero :
    validMod 7 ∧ Nat.Prime 7 ∧ i32.inRange 7 ∧ (7 : Int) % 7 = 0 ∧
    normalize 7 i32 7 = mul 7 0 0 ∧
    sqrt ⟨7, false, 0⟩ ⟨[0], [0]⟩ 100 i32 7 = .throw .notQuadraticResidue ∧
    sqrt ⟨7, false, 0⟩ ⟨[0], [0]⟩ 100 i32 0 = .ok 0 ∧
    sqrt ⟨2, false, 0⟩ ⟨[0], [0]⟩ 100 i32 5 = .ok 1 := by
  refine ⟨by decide, by norm_num, by decide, by decide, by decide, by decide, by decide,
    by decide⟩

theorem common_inRange_of_nonneg (T U : IntTy)
    (hT : T ∈ [i8, u8, i16, u16, i32, u32, i64, u64])
    (hU : U ∈ [i8, u8, i16, u16, i32, u32, i64, u64]) (x : Int) (hx0 : 0 ≤ x)
    (hx : T.inRange x ∨ U.inRange x) :
    (T.common U).inRange x ∧ 0 < (T.common U).bits := by
  simp only [List.mem_cons, List.mem_singleton, List.not_mem_nil, or_false] at hT hU
  rcases hT with rfl | rfl | rfl | rfl | rfl | rfl | rfl | rfl <;>
  rcases hU with rfl | rfl | rfl | rfl | rfl | rfl | rfl | rfl <;>
  (simp only [IntTy.common, IntTy.promote, IntTy.inRange, i8, u8, i16, u16, i32, u32, i64,
      u64] at hx ⊢
   norm_num at hx ⊢
   omega)

theorem table_read_nonneg (table : List Nat) (x : Int) (hx : 0 ≤ x) :
    table_read table x = table[x.toNat]? := by
  unfold table_read
  rw [if_neg (by omega)]

theorem binomial_unfold (C : Constants) (tb : Tables) (T U : IntTy) (n k : Int)
    (hT : T ∈ [i8, u8, i16, u16, i32, u32, i64, u64])
    (hU : U ∈ [i8, u8, i16, u16, i32, u32, i64, u64])
    (hTm : T.inRange (C.PRECALC_MAX : Int)) (hn : T.inRange n) (hk : U.inRange k)
    (hn0 : 0 ≤ n) (hk0 : 0 ≤ k) :
    binomial C tb T U n k =
      if n < k then .ok (normalize C.MOD i32 0)
      else if n > (C.PRECALC_MAX : Int) then .throw .nGreaterThanMaximum
      else
        match tb.fact[n.toNat]?, tb.ifact[k.toNat]?, tb.ifact[(n - k).toNat]? with
        | some f, some i1, some i2 =>
          .ok (mul_assign C.MOD
            (mul_assign C.MOD (normalize C.MOD u32 f) (normalize C.MOD u32 i1))
            (normalize C.MOD u32 i2))
        | _, _, _ => .undefined := by
  have hTb : 0 < T.bits := by
    simp only [List.mem_cons, List.mem_singleton, List.not_mem_nil, or_false] at hT
    rcases hT with rfl | rfl | rfl | rfl | rfl | rfl | rfl | rfl <;> decide
  obtain ⟨cn, cb⟩ := common_inRange_of_nonneg T U hT hU n hn0 (Or.inl hn)
  obtain ⟨ck, _⟩ := common_inRange_of_nonneg T U hT hU k hk0 (Or.inr hk)
  have wn := wrap_eq_of_inRange (T.common U) cb cn
  have wk := wrap_eq_of_inRange (T.common U) cb ck
  have wm := wrap_eq_of_inRange T hTb hTm
  unfold binomial
  rw [wn, wk, wm]
  by_cases h1 : n < k
  · rw [if_pos h1, if_pos h1]
  · rw [if_neg h1, if_neg h1]
    by_cases h2 : n > (C.PRECALC_MAX : Int)
    · rw [if_pos h2, if_pos h2]
    · rw [if_neg h2, if_neg h2]
      have hd0 : 0 ≤ n - k := by omega
      have hdr : T.inRange (n - k) ∨ U.inRange (n - k) := by
        left
        unfold IntTy.inRange at hn ⊢
        split at hn
        · rename_i hs
          rw [if_pos hs]
          have : (0 : Int) < 2 ^ (T.bits - 1) := by positivity
          omega
        · rename_i hs
          rw [if_neg hs]
          omega
      obtain ⟨cd, _⟩ := common_inRange_of_nonneg T U hT hU (n - k) hd0 hdr
      rw [wrap_eq_of_inRange (T.common U) cb cd, table_read_nonneg _ _ hn0,
        table_read_nonneg _ _ hk0, table_read_nonneg _ _ hd0]

theorem binomial_value (p n k f vk vd : Nat) (hp : 1 < p) (hkn : k ≤ n)
    (hf : f = n.factorial % p) (hk : vk * k.factorial % p = 1)
    (hd : vd * (n - k).factorial % p = 1) :
    f % p * (vk % p) % p * (vd % p) % p = n.choose k % p := by
  have e := Nat.choose_mul_factorial_mul_factorial hkn
  have h1 : f % p * (vk % p) % p * (vd % p) ≡ n.factorial * vk * vd [MOD p] := by
    have a1 : f % p ≡ n.factorial [MOD p] := by
      rw [hf, Nat.mod_mod]; exact Nat.mod_modEq _ _
    have a2 : vk % p ≡ vk [MOD p] := Nat.mod_modEq _ _
    have a3 : vd % p ≡ vd [MOD p] := Nat.mod_modEq _ _
    exact ((Nat.mod_modEq _ _).trans (a1.mul a2)).mul a3
  have h2 : n.factorial * vk * vd ≡ n.choose k [MOD p] := by
    have b1 : vk * k.factorial ≡ 1 [MOD p] := by
      unfold Nat.ModEq; rw [hk, Nat.mod_eq_of_lt hp]
    have b2 : vd * (n - k).factorial ≡ 1 [MOD p] := by
      unfold Nat.ModEq; rw [hd, Nat.mod_eq_of_lt hp]
    have b3 := ((Nat.ModEq.refl (n.choose k)).mul b1).mul b2
    have e2 : n.choose k * (vk * k.factorial) * (vd * (n - k).factorial)
        = n.factorial * vk * vd := by
      rw [← e]; ring
    rw [e2, Nat.mul_one, Nat.mul_one] at b3
    exact b3
  exact h1.trans h2

theorem binomial_spec (C : Constants) (tb : Tables) (fuel : Nat) (T U : IntTy) (n k : Int)
    (hmod : validMod C.MOD) (hp : Nat.Prime C.MOD) (hmax : C.PRECALC_MAX < C.MOD)
    (htb : calculate_factorials C fuel = .ok tb) (hfuel : 46340 ≤ fuel)
    (hT : T ∈ [i8, u8, i16, u16, i32, u32, i64, u64])
    (hU : U ∈ [i8, u8, i16, u16, i32, u32, i64, u64])
    (hTm : T.inRange (C.PRECALC_MAX : Int)) (hn : T.inRange n) (hk : U.inRange k)
    (hn0 : 0 ≤ n) (hnm : n ≤ C.PRECALC_MAX) (hk0 : 0 ≤ k) :
    binomial C tb T U n k = .ok (n.toNat.choose k.toNat % C.MOD) := by
  have h1 := hmod.1
  have h2 := hmod.2
  obtain ⟨tb', htb', hfact, hifact⟩ := calculate_factorials_spec C fuel hmod hp hmax hfuel
  rw [htb] at htb'
  injection htb' with htb'
  subst htb'
  rw [binomial_unfold C tb T U n k hT hU hTm hn hk hn0 hk0]
  by_cases hlt : n < k
  · rw [if_pos hlt, normalize_i32_zero _ hmod, Nat.choose_eq_zero_of_lt (by omega),
      Nat.zero_mod]
  · rw [if_neg hlt, if_neg (by omega)]
    have e : (n - k).toNat = n.toNat - k.toNat := by omega
    obtain ⟨vk, hvk, hvklt, hvkm⟩ := hifact k.toNat (by omega)
    obtain ⟨vd, hvd, hvdlt, hvdm⟩ := hifact (n.toNat - k.toNat) (by omega)
    have hf := hfact n.toNat (by omega)
    rw [e]
    simp only [hf, hvk, hvd]
    have hpos : 0 < C.MOD := by omega
    have hlt : ∀ x, x % C.MOD < 4294967296 := fun x => by
      have := Nat.mod_lt x hpos; omega
    have hml : ∀ a b, mul_assign C.MOD a b < 4294967296 := fun a b => by
      have := mul_assign_lt C.MOD a b hpos; omega
    rw [normalize_u32 _ _ hmod (hlt _), normalize_u32 _ _ hmod (by omega),
      normalize_u32 _ _ hmod (by omega), mul_assign_eq _ _ _ (hml _ _) (hlt _),
      mul_assign_eq _ _ _ (hlt _) (hlt _)]
    congr 1
    exact binomial_value C.MOD n.toNat k.toNat _ vk vd h1 (by omega) rfl hvkm hvdm

theorem inRange_of_nonneg_le (T : IntTy) (x y : Int) (hx : T.inRange x) (hy0 : 0 ≤ y)
    (hyx : y ≤ x) : T.inRange y := by
  unfold IntTy.inRange at hx ⊢
  split at hx
  · rename_i hs
    rw [if_pos hs]
    have : (0 : Int) < 2 ^ (T.bits - 1) := by positivity
    omega
  · rename_i hs
    rw [if_neg hs]
    omega

theorem calculate_factorials_length (C : Constants) (fuel : Nat) (tb : Tables)
    (hmod : validMod C.MOD) (hmax : C.PRECALC_MAX < 4294967296)
    (htb : calculate_factorials C fuel = .ok tb) :
    tb.fact.length = C.PRECALC_MAX + 1 ∧ tb.ifact.length = C.PRECALC_MAX + 1 ∧
    ∃ v, tb.ifact[0]? = some v := by
  have h1 := hmod.1
  have hpos : 0 < C.MOD := by omega
  unfold calculate_factorials at htb
  dsimp only at htb
  split at htb
  · rename_i inv hinv
    injection htb with htb
    subst htb
    have hfl := (calculate_fact_spec C hmod hmax).1
    have hil : (calculate_ifact C inv).length = C.PRECALC_MAX + 1 := by
      unfold calculate_ifact
      generalize (List.range' 1 C.PRECALC_MAX).reverse = l
      generalize hinit : (List.replicate (C.PRECALC_MAX + 1) 0).set C.PRECALC_MAX inv = init
      have hlen : init.length = C.PRECALC_MAX + 1 := by
        rw [← hinit]; simp
      clear hinit
      induction l generalizing init with
      | nil => exact hlen
      | cons a l ih =>
        rw [List.foldl_cons]
        apply ih
        simp [hlen]
    refine ⟨hfl, hil, ?_⟩
    have : 0 < (calculate_ifact C inv).length := by omega
    exact ⟨_, List.getElem?_eq_getElem this⟩
  all_goals cases htb

/-- In the shipped policy `Mint`, `initialize` builds the tables and, for all `n` and
`k` with `0 ≤ n ≤ PRECALC_MAX` and `k ≥ 0`, passed in integer types of which the type of
`n` holds `PRECALC_MAX`, `binomial(n, k)` returns the binomial coefficient modulo the
modulus (0 when `k > n`); so `binomial(n, 0) = binomial(n, n) = 1` and, for `0 < k < n`,
`binomial(n, k) = binomial(n - 1, k - 1) + binomial(n - 1, k)`. -/
theorem binomial_Mint_wide (fuel : Nat) (T U : IntTy) (n k : Int) (hfuel : 46340 ≤ fuel)
    (hT : T ∈ [i8, u8, i16, u16, i32, u32, i64, u64])
    (hU : U ∈ [i8, u8, i16, u16, i32, u32, i64, u64])
    (hTm : T.inRange (Mint.PRECALC_MAX : Int)) (hn : T.inRange n) (hk : U.inRange k)
    (hn0 : 0 ≤ n) (hnm : n ≤ Mint.PRECALC_MAX) (hk0 : 0 ≤ k) :
    ∃ tb, initialize_policy Mint fuel = .accepted (.ok tb) ∧
      binomial Mint tb T U n k = .ok (n.toNat.choose k.toNat % Mint.MOD) ∧
      (n < k → binomial Mint tb T U n k = .ok 0) ∧
      binomial Mint tb T U n 0 = .ok 1 ∧ binomial Mint tb T T n n = .ok 1 ∧
      (0 < k → k < n → ∃ r1 r2, binomial Mint tb T U (n - 1) (k - 1) = .ok r1 ∧
        binomial Mint tb T U (n - 1) k = .ok r2 ∧
        binomial Mint tb T U n k = .ok (add Mint.MOD r1 r2)) := by
  have hmod : validMod Mint.MOD := by decide
  have hp := prime_Mint_MOD
  have hmax : Mint.PRECALC_MAX < Mint.MOD := by decide
  have hM : Mint.MOD = 1000000007 := rfl
  obtain ⟨tb, htb, _, _⟩ := calculate_factorials_spec Mint fuel hmod hp hmax hfuel
  have hspec : ∀ (U' : IntTy) (n' k' : Int),
      U' ∈ [i8, u8, i16, u16, i32, u32, i64, u64] → T.inRange n' → U'.inRange k' →
      0 ≤ n' → n' ≤ Mint.PRECALC_MAX → 0 ≤ k' →
      binomial Mint tb T U' n' k' = .ok (n'.toNat.choose k'.toNat % Mint.MOD) :=
    fun U' n' k' hU' a b c d e =>
      binomial_spec Mint tb fuel T U' n' k' hmod hp hmax htb hfuel hT hU' hTm a b c d e
  have hmain := hspec U n k hU hn hk hn0 hnm hk0
  refine ⟨tb, ?_, hmain, ?_, ?_, ?_, ?_⟩
  · rw [initialize_policy_prime Mint fuel hmod hp rfl hfuel, htb]
  · intro hlt
    rw [hmain, Nat.choose_eq_zero_of_lt (by omega), Nat.zero_mod]
  · rw [hspec U n 0 hU hn (inRange_of_nonneg_le U k 0 hk (le_refl _) hk0) hn0 hnm (le_refl _)]
    simp [hM]
  · rw [hspec T n n hT hn hn hn0 hnm hn0]
    simp [hM]
  · intro hk1 hkn
    have e1 := hspec U (n - 1) (k - 1) hU (inRange_of_nonneg_le T n _ hn (by omega) (by omega))
      (inRange_of_nonneg_le U k _ hk (by omega) (by omega)) (by omega) (by omega) (by omega)
    have e2 := hspec U (n - 1) k hU (inRange_of_nonneg_le T n _ hn (by omega) (by omega))
      hk (by omega) (by omega) hk0
    refine ⟨_, _, e1, e2, ?_⟩
    rw [hmain]
    congr 1
    have hlt : ∀ x, x % Mint.MOD < Mint.MOD := fun x => Nat.mod_lt _ (by decide)
    unfold add
    rw [add_assign_eq _ _ _ hmod (hlt _) (hlt _), ← Nat.add_mod]
    obtain ⟨a, ha⟩ : ∃ a, n.toNat = a + 1 := ⟨n.toNat - 1, by omega⟩
    obtain ⟨b, hb⟩ : ∃ b, k.toNat = b + 1 := ⟨k.toNat - 1, by omega⟩
    have ea : (n - 1).toNat = a := by omega
    have eb : (k - 1).toNat = b := by omega
    rw [ea, eb, ha, hb, Nat.choose_succ_succ]

/-- C15, counterexample: `binomial(300000, 400000)` under the shipped policy, with `int`
arguments and any tables, returns 0 and does not throw although `n` exceeds
`PRECALC_MAX = 200000`: the test `n < k` comes first.  Likewise `binomial(6, 7)` under
modulus 7 with `PRECALC_MAX = 5`. -/
theorem C15_binomial_throw_counterexample :
    (300000 : Int) > Mint.PRECALC_MAX ∧
    (∀ tb, binomial Mint tb i32 i32 300000 400000 = .ok 0) ∧
    initialize_policy ⟨7, true, 5⟩ 100 = .accepted (.ok
      ⟨[1, 1, 2, 6, 3, 1], [1, 1, 4, 6, 5, 1]⟩) ∧
    binomial ⟨7, true, 5⟩ ⟨[1, 1, 2, 6, 3, 1], [1, 1, 4, 6, 5, 1]⟩ i32 i32 6 7 = .ok 0 := by
  refine ⟨by decide, ?_, by decide, by decide⟩
  intro tb
  rw [binomial_unfold Mint tb i32 i32 300000 400000 (by decide) (by decide) (by decide)
    (by decide) (by decide) (by decide) (by decide), if_pos (by decide)]
  decide

/-- C19: in the shipped policy, after `initialize`, the tables have 200001 entries;
dividing by the residue 0 takes the table path and reads `fact[0 - 1]`, the index being
the `uint32_t` 4294967295, and `binomial(5, -1)` with `int` arguments neither throws nor
returns early and reads `ifact[-1]`: both reads are outside the tables. -/
theorem C19_table_reads_outside :
    toU32 (((0 : Nat) : Int) - 1) = 4294967295 ∧
    ∃ tb, initialize_policy Mint 46340 = .accepted (.ok tb) ∧
      tb.fact.length = 200001 ∧ tb.ifact.length = 200001 ∧
      tb.fact[toU32 (((0 : Nat) : Int) - 1)]? = none ∧
      div_assign Mint tb 46340 3 0 = .undefined ∧
      table_read tb.ifact (-1) = none ∧
      binomial Mint tb i32 i32 5 (-1) = .undefined := by
  have hmod : validMod Mint.MOD := by decide
  have hp := prime_Mint_MOD
  have hmax : Mint.PRECALC_MAX < Mint.MOD := by decide
  have hidx : toU32 (((0 : Nat) : Int) - 1) = 4294967295 := by decide
  obtain ⟨tb, htb, hfact, hifact⟩ :=
    calculate_factorials_spec Mint 46340 hmod hp hmax (by decide)
  obtain ⟨hfl, hil, v, hv⟩ := calculate_factorials_length Mint 46340 tb hmod (by decide) htb
  have hnone : tb.fact[toU32 (((0 : Nat) : Int) - 1)]? = none := by
    rw [hidx, List.getElem?_eq_none]
    rw [hfl]
    decide
  have hr : table_read tb.ifact (-1) = none := by
    unfold table_read
    rw [if_pos (by decide)]
  refine ⟨hidx, tb, ?_, hfl, hil, hnone, ?_, hr, ?_⟩
  · rw [initialize_policy_prime Mint 46340 hmod hp rfl (by decide), htb]
  · unfold div_assign
    rw [if_pos ⟨rfl, by decide⟩]
    simp only [hv, hnone]
  · have e1 : (i32.common i32).wrap 5 = 5 := by decide
    have e2 : (i32.common i32).wrap (-1) = -1 := by decide
    have e3 : (i32.common i32).wrap (5 - -1) = 6 := by decide
    have e4 : i32.wrap ((Mint.PRECALC_MAX : Nat) : Int) = 200000 := by decide
    unfold binomial
    rw [e1, e2, e3, e4, if_neg (by decide), if_neg (by decide), hr]
    cases table_read tb.fact 5 <;> cases table_read tb.ifact 6 <;> rfl

theorem normalize_i32_zero_any (mod : Nat) : normalize mod i32 0 = 0 := by
  have hw : i32.wrap 0 = 0 := by decide
  have ht : toU32 0 = 0 := by decide
  unfold normalize
  rw [Int.zero_tmod, hw]
  have hz : ¬ ((0 : Int) < 0) := by decide
  split
  · dsimp only
    rw [if_neg hz, ht]
  · dsimp only
    rw [if_neg hz, ht]

theorem power_number_spec (C : Constants) (tb : Tables) (fuel : Nat) (T : IntTy)
    (number : Int) (U : IntTy) (e : Int) (hmod : validMod C.MOD) (hb : 0 < T.bits)
    (hT : T.signed = true → (C.MOD : Int) < 2 ^ (T.bits - 1)) (hr : T.inRange number)
    (he0 : 0 ≤ e) (he : e < 2 ^ 64) (hfuel : 65 ≤ fuel) :
    ∃ r, power_number C tb fuel T number U e = .ok r ∧
      (r : Int) = number ^ e.toNat % (C.MOD : Int) := by
  have h1 := hmod.1
  have h2 := hmod.2
  have hn := normalize_spec C.MOD T number hmod hb hT hr
  have hlt := normalize_lt C.MOD T number hmod hb hT hr
  have hcast : e = ((e.toNat : Nat) : Int) := by omega
  have hk : e.toNat < 2 ^ 64 := by
    have : (e.toNat : Int) < 2 ^ 64 := by omega
    exact_mod_cast this
  have hp := power_nonneg_wide C tb hmod fuel (normalize C.MOD T number) U e.toNat
    (by omega) hk hfuel
  rw [← hcast] at hp
  refine ⟨_, hp, ?_⟩
  push_cast
  rw [hn]
  exact (Int.ModEq.pow e.toNat (Int.mod_modEq number C.MOD))

/-- C7: `power(number, deg)` constructs its base through `normalize`, so the narrowing of
`normalize` reaches it: under the shipped modulus 1000000007, `power(int16_t(-1), 1)`
builds the residue 4294953478 and returns 294953450, while `(-1)^1 mod 1000000007` is
1000000006.  With `int` bases, `power(2, 10) = 1024` and `power(0, 0) = 1`. -/
theorem C7_power_narrow_signed_base :
    validMod Mint.MOD ∧ i16.inRange (-1) ∧ normalize Mint.MOD i16 (-1) = 4294953478 ∧
    (∀ tb, power_number Mint tb 65 i16 (-1) i32 1 = .ok 294953450) ∧
    (-1 : Int) ^ 1 % (Mint.MOD : Int) = 1000000006 ∧
    (∀ tb, power_number Mint tb 65 i32 2 i32 10 = .ok 1024) ∧
    (∀ tb, power_number Mint tb 65 i32 0 i32 0 = .ok 1) := by
  refine ⟨by decide, by decide, by decide, ?_, by decide, ?_, ?_⟩
  · intro tb
    unfold power_number power
    rw [if_neg (by decide)]
    decide
  · intro tb
    unfold power_number power
    rw [if_neg (by decide)]
    decide
  · intro tb
    unfold power_number power
    rw [if_neg (by decide)]
    decide

/-- C14: under the shipped policy, `binomial(uint8_t(100), 2)` throws "N is greater than
maximum calculated value" although `0 ≤ 100 ≤ PRECALC_MAX = 200000`: line 85 converts
`PRECALC_MAX` to the type of `n`, and `static_cast<uint8_t>(200000)` is 64.  The same
call with `int` arguments returns `C(100, 2) = 4950`, and `binomial(5, 2) = 10`. -/
theorem C14_binomial_narrow_type :
    u8.inRange 100 ∧ (0 : Int) ≤ 100 ∧ (100 : Int) ≤ (Mint.PRECALC_MAX : Int) ∧
    u8.wrap (Mint.PRECALC_MAX : Int) = 64 ∧ Nat.choose 100 2 % Mint.MOD = 4950 ∧
    (∀ tb, binomial Mint tb u8 i32 100 2 = .throw .nGreaterThanMaximum) ∧
    ∃ tb, initialize_policy Mint 46340 = .accepted (.ok tb) ∧
      binomial Mint tb u8 i32 100 2 = .throw .nGreaterThanMaximum ∧
      binomial Mint tb i32 i32 100 2 = .ok 4950 ∧
      binomial Mint tb i32 i32 5 2 = .ok 10 := by
  have hc : Nat.choose 100 2 % Mint.MOD = 4950 := by
    rw [Nat.choose_two_right]; decide
  have hthrow : ∀ tb, binomial Mint tb u8 i32 100 2 = .throw .nGreaterThanMaximum := by
    intro tb
    unfold binomial
    rw [if_neg (by decide), if_pos (by decide)]
  refine ⟨by decide, by decide, by decide, by decide, hc, hthrow, ?_⟩
  obtain ⟨tb, h1, h2, _⟩ := binomial_Mint_wide 46340 i32 i32 100 2 (by decide) (by decide)
    (by decide) (by decide) (by decide) (by decide) (by decide) (by decide) (by decide)
  obtain ⟨tb', h1', h2', _⟩ := binomial_Mint_wide 46340 i32 i32 5 2 (by decide) (by decide)
    (by decide) (by decide) (by decide) (by decide) (by decide) (by decide) (by decide)
  rw [h1] at h1'
  injection h1' with h1'
  injection h1' with h1'
  subst h1'
  have e1 : (100 : Int).toNat = 100 := by decide
  have e2 : (2 : Int).toNat = 2 := by decide
  have e3 : (5 : Int).toNat = 5 := by decide
  have hc5 : Nat.choose 5 2 % Mint.MOD = 10 := by decide
  rw [e1, e2, hc] at h2
  rw [e3, e2, hc5] at h2'
  exact ⟨tb, h1, hthrow tb, h2, h2'⟩

/-- C15, amended: for non-negative `n` and `k` passed in integer types of which the type
of `n` holds `PRECALC_MAX`, `binomial(n, k)` throws "N is greater than maximum calculated
value" exactly when `k ≤ n` and `n > PRECALC_MAX`; when `n < k` it returns 0, whatever
`n` is; it throws nothing else, and nothing when `n ≤ PRECALC_MAX`. -/
theorem C15_binomial_throw_amended (C : Constants) (tb : Tables) (T U : IntTy) (n k : Int)
    (hT : T ∈ [i8, u8, i16, u16, i32, u32, i64, u64])
    (hU : U ∈ [i8, u8, i16, u16, i32, u32, i64, u64])
    (hTm : T.inRange (C.PRECALC_MAX : Int)) (hn : T.inRange n) (hk : U.inRange k)
    (hn0 : 0 ≤ n) (hk0 : 0 ≤ k) :
    (binomial C tb T U n k = .throw .nGreaterThanMaximum ↔
      k ≤ n ∧ (C.PRECALC_MAX : Int) < n) ∧
    (n < k → binomial C tb T U n k = .ok 0) ∧
    (∀ e, binomial C tb T U n k = .throw e → e = .nGreaterThanMaximum) ∧
    (n ≤ C.PRECALC_MAX → ∀ e, binomial C tb T U n k ≠ .throw e) := by
  rw [binomial_unfold C tb T U n k hT hU hTm hn hk hn0 hk0]
  by_cases h1 : n < k
  · rw [if_pos h1, normalize_i32_zero_any]
    refine ⟨⟨?_, ?_⟩, ?_, ?_, ?_⟩
    · intro h; cases h
    · intro h; omega
    · intro _; rfl
    · intro e h; cases h
    · intro _ e h; cases h
  · rw [if_neg h1]
    by_cases h2 : n > (C.PRECALC_MAX : Int)
    · rw [if_pos h2]
      refine ⟨⟨?_, ?_⟩, ?_, ?_, ?_⟩
      · intro _; exact ⟨by omega, by omega⟩
      · intro _; rfl
      · intro h; exact absurd h h1
      · intro e h
        injection h with h
        exact h.symm
      · intro h; omega
    · rw [if_neg h2]
      have hno : ∀ e, (match tb.fact[n.toNat]?, tb.ifact[k.toNat]?,
            tb.ifact[(n - k).toNat]? with
          | some f, some i1, some i2 =>
            Outcome.ok (mul_assign C.MOD
              (mul_assign C.MOD (normalize C.MOD u32 f) (normalize C.MOD u32 i1))
              (normalize C.MOD u32 i2))
          | _, _, _ => Outcome.undefined) ≠ Outcome.throw e := by
        intro e
        split
        · intro h; cases h
        · intro h; cases h
      refine ⟨⟨?_, ?_⟩, ?_, ?_, ?_⟩
      · intro h; exact absurd h (hno _)
      · intro h; omega
      · intro h; exact absurd h h1
      · intro e h; exact absurd h (hno e)
      · intro _ e; exact hno e

/-- Witness of C15 as amended: modulus 7 with `PRECALC_MAX = 5`: `binomial(6, 2)`
throws and `binomial(6, 7)` returns 0. -/
theorem C15_binomial_throw_amended_witness :
    i32.inRange ((5 : Nat) : Int) ∧
    (binomial ⟨7, true, 5⟩ ⟨[1, 1, 2, 6, 3, 1], [1, 1, 4, 6, 5, 1]⟩ i32 i32 6 2
        = .throw .nGreaterThanMaximum ↔ (2 : Int) ≤ 6 ∧ ((5 : Nat) : Int) < 6) ∧
    binomial ⟨7, true, 5⟩ ⟨[1, 1, 2, 6, 3, 1], [1, 1, 4, 6, 5, 1]⟩ i32 i32 6 7 = .ok 0 :=
  ⟨by decide,
    (C15_binomial_throw_amended ⟨7, true, 5⟩ ⟨[1, 1, 2, 6, 3, 1], [1, 1, 4, 6, 5, 1]⟩ i32 i32
      6 2 (by decide) (by decide) (by decide) (by decide) (by decide) (by decide)
      (by decide)).1,
    (C15_binomial_throw_amended ⟨7, true, 5⟩ ⟨[1, 1, 2, 6, 3, 1], [1, 1, 4, 6, 5, 1]⟩ i32 i32
      6 7 (by decide) (by decide) (by decide) (by decide) (by decide) (by decide)
      (by decide)).2.1 (by decide)⟩

end Modular
